import Mathlib

/-!
Verification of the theinbox synchronization + storage + filter-matching engine.

This file gives a shallow embedding, in Lean 4, of the storage layer
(src/src-tauri/src/storage/mod.rs), the filter engine (compile_filters,
match_filters, refresh_filtered_emails, save_filters,
refresh_filter_matches_for_account), the sync orchestrator
(src/src-tauri/src/gmail.rs, fetch_emails_since) and the sync coordinator
(src/src-tauri/src/lib.rs, gmail_sync_all_background), together with proofs
and refutations of the specification claims about them.

Modelling conventions:
* the SQLite emails table is a list of rows; the INTEGER PRIMARY KEY is a
  monotone counter (nextId); SQLite assigns increasing rowids, which is the
  well-formedness invariant DbWf below, and every ORDER BY of the source is
  embedded as an explicit sort so that the embedding does not depend on the
  invariant;
* the regex crate is external to the repository; it is abstracted as a
  parameter compileRegex : String -> Option (String -> Bool), modelling
  RegexBuilder::new(p).case_insensitive(true).build().ok() followed by
  Regex::is_match;
* timestamps (updated_at) are modelled by a logical clock on the database;
* errors in the source are all I/O or lock errors with no semantic content,
  so the embedded operations are total, as the Ok paths of the source.
-/

namespace TheInbox

/-- Target field of a filter rule (FilterField in mail.rs / filters.rs). -/
inductive FilterField where
  | subject
  | sender
  | any
deriving DecidableEq, Repr

/-- A filter rule (FilterPattern): numeric id, display name, pattern text,
target field, regex-vs-substring mode, enabled flag. -/
structure FilterPattern where
  id : Int
  name : String
  pattern : String
  field : FilterField
  is_regex : Bool
  enabled : Bool
deriving DecidableEq, Repr

/-- One message delivered by the Gmail collaborator (GmailEmail in gmail.rs). -/
structure GmailEmail where
  uid : Nat
  message_id : String
  subject : String
  sender : String
  date : String
  date_epoch : Int
  is_read : Bool
deriving DecidableEq, Repr

/-- One row of the emails table, including the cached body columns. -/
structure EmailRow where
  id : Nat
  uid : Nat
  message_id : String
  subject : String
  sender : String
  date : String
  date_epoch : Int
  mailbox : String
  account : String
  is_read : Bool
  body_html : Option String
  body_text : Option String
  updated_at : Nat
deriving DecidableEq, Repr

/-- The projection returned by list_emails (StoredEmail). -/
structure StoredEmail where
  uid : Nat
  message_id : String
  subject : String
  sender : String
  date : String
  date_epoch : Int
  mailbox : String
  account : String
  is_read : Bool
deriving DecidableEq, Repr

/-- The single-file SQLite database: emails, filters, filtered_emails and the
per-account filter cursor table filter_sync_state_v2 (one fixed scope). -/
structure Db where
  emails : List EmailRow
  nextId : Nat
  filters : List FilterPattern
  nextFilterId : Int
  filtered : List (Nat × Int)
  filterCursor : List (String × Int)
  clock : Nat
deriving DecidableEq, Repr

/-- Key predicate for the UNIQUE(account, uid) constraint. -/
def keyMatch (account : String) (uid : Nat) (r : EmailRow) : Bool :=
  r.account == account && r.uid == uid

/-- The DO UPDATE SET arm of the upsert statement: on a key match, overwrite
message_id, subject, sender, date, date_epoch, mailbox, account, is_read and
updated_at; body_html and body_text are not in the SET list. -/
def updRow (account mailbox : String) (e : GmailEmail) (clock : Nat)
    (r : EmailRow) : EmailRow :=
  if keyMatch account e.uid r then
    { r with
      message_id := e.message_id
      subject := e.subject
      sender := e.sender
      date := e.date
      date_epoch := e.date_epoch
      mailbox := mailbox
      account := account
      is_read := e.is_read
      updated_at := clock }
  else r

/-- The fresh row inserted when the key is absent. -/
def newRow (account mailbox : String) (e : GmailEmail) (id clock : Nat) :
    EmailRow :=
  { id := id
    uid := e.uid
    message_id := e.message_id
    subject := e.subject
    sender := e.sender
    date := e.date
    date_epoch := e.date_epoch
    mailbox := mailbox
    account := account
    is_read := e.is_read
    body_html := none
    body_text := none
    updated_at := clock }

/-- One execution of the upsert statement of upsert_emails: INSERT ... ON
CONFLICT(account, uid) DO UPDATE. -/
def upsertOne (account mailbox : String) (db : Db) (e : GmailEmail) : Db :=
  if db.emails.any (keyMatch account e.uid) then
    { db with
      emails := db.emails.map (updRow account mailbox e db.clock)
      clock := db.clock + 1 }
  else
    { db with
      emails := db.emails ++ [newRow account mailbox e db.nextId db.clock]
      nextId := db.nextId + 1
      clock := db.clock + 1 }

/-- upsert_emails: one transaction running the upsert statement per message. -/
def upsertEmails (db : Db) (account mailbox : String) (emails : List GmailEmail) : Db :=
  emails.foldl (upsertOne account mailbox) db

/-- The rows holding a given (account, uid) key. -/
def rowsFor (db : Db) (account : String) (uid : Nat) : List EmailRow :=
  db.emails.filter (keyMatch account uid)

/-- Well-formedness of the database representation: unique (account, uid)
keys, rows listed in strictly increasing id order, ids positive and below the
id counter, filter ids below the filter id counter. All of these hold of any
database produced by the migrated schema. -/
structure DbWf (db : Db) : Prop where
  keysNodup : (db.emails.map (fun r => (r.account, r.uid))).Nodup
  idsSorted : db.emails.Pairwise (fun r s => r.id < s.id)
  idsLt : ∀ r ∈ db.emails, r.id < db.nextId
  idsPos : ∀ r ∈ db.emails, 1 ≤ r.id
  nextIdPos : 1 ≤ db.nextId
  filterIdsLt : ∀ f ∈ db.filters, f.id < db.nextFilterId
  filterIdsNodup : (db.filters.map (fun f => f.id)).Nodup
  filteredLive : ∀ p ∈ db.filtered, ∃ f ∈ db.filters, f.id = p.2

/-! ### list_emails / count_emails -/

/-- Ordering used by ORDER BY date_epoch DESC. -/
def EpochDesc (r s : EmailRow) : Prop :=
  s.date_epoch ≤ r.date_epoch

instance : DecidableRel EpochDesc := fun r s =>
  inferInstanceAs (Decidable (s.date_epoch ≤ r.date_epoch))

instance : IsTotal EmailRow EpochDesc :=
  ⟨fun r s => Int.le_total s.date_epoch r.date_epoch⟩

instance : IsTrans EmailRow EpochDesc :=
  ⟨fun _ _ _ h1 h2 => le_trans h2 h1⟩

/-- Ordering used by ORDER BY id ASC. -/
def IdAsc (r s : EmailRow) : Prop :=
  r.id ≤ s.id

instance : DecidableRel IdAsc := fun r s =>
  inferInstanceAs (Decidable (r.id ≤ s.id))

instance : IsTotal EmailRow IdAsc :=
  ⟨fun r s => Nat.le_total r.id s.id⟩

instance : IsTrans EmailRow IdAsc :=
  ⟨fun _ _ _ h1 h2 => le_trans h1 h2⟩

/-- Projection of an emails row to the StoredEmail result type. -/
def toStored (r : EmailRow) : StoredEmail :=
  { uid := r.uid, message_id := r.message_id, subject := r.subject,
    sender := r.sender, date := r.date, date_epoch := r.date_epoch,
    mailbox := r.mailbox, account := r.account, is_read := r.is_read }

/-- WHERE clause of list_emails / count_emails. -/
def listedB (account : String) (unreadOnly : Bool) (r : EmailRow) : Bool :=
  r.account == account && (!unreadOnly || !r.is_read)

/-- list_emails: WHERE account (AND is_read = 0), ORDER BY date_epoch DESC,
LIMIT ?, OFFSET ?. -/
def listEmails (db : Db) (account : String) (unreadOnly : Bool)
    (limit offset : Nat) : List StoredEmail :=
  (((((db.emails.filter (listedB account unreadOnly)).insertionSort
      EpochDesc).drop offset).take limit).map toStored)

/-- count_emails. -/
def countEmails (db : Db) (account : String) (unreadOnly : Bool) : Nat :=
  (db.emails.filter (listedB account unreadOnly)).length

/-! ### mark_emails_read -/

/-- Splitting a list into successive chunks of at most n elements, as Rust's
slice::chunks; defined for n >= 1 (chunks panics on 0, and the source uses the
constant 200). -/
def chunksOf : Nat → List α → List (List α)
  | _, [] => []
  | 0, _ :: _ => []
  | n + 1, a :: t =>
    (a :: t).take (n + 1) :: chunksOf (n + 1) ((a :: t).drop (n + 1))
termination_by _ l => l.length
decreasing_by
  simp only [List.drop_succ_cons, List.length_drop, List.length_cons]
  omega

/-- The rows hit by one UPDATE ... WHERE account = ? AND uid IN (chunk). -/
def hitB (account : String) (us : List Nat) (r : EmailRow) : Bool :=
  r.account == account && us.contains r.uid

/-- One UPDATE statement of mark_emails_read over one 200-uid chunk: sets
is_read = 1 and refreshes updated_at on every matched row, and reports the
number of matched rows (sqlite3_changes). -/
def markChunk (account : String) (chunk : List Nat) (db : Db) : Db × Nat :=
  ({ db with
      emails := db.emails.map (fun r =>
        if hitB account chunk r then
          { r with is_read := true, updated_at := db.clock }
        else r)
      clock := db.clock + 1 },
   (db.emails.filter (hitB account chunk)).length)

/-- mark_emails_read: early return on an empty uid list, otherwise one
transaction executing one UPDATE per 200-uid chunk and summing the changed
row counts. -/
def markEmailsRead (db : Db) (account : String) (uids : List Nat) : Db × Nat :=
  if uids.isEmpty then (db, 0)
  else
    (chunksOf 200 uids).foldl
      (fun acc chunk =>
        let r := markChunk account chunk acc.1
        (r.1, acc.2 + r.2))
      (db, 0)

/-! ### set_email_bodies -/

/-- set_email_bodies: one UPDATE of body_html/body_text per (uid, body) pair;
the explicit body-setting operation. -/
def setEmailBodies (db : Db) (account : String)
    (bodies : List (Nat × Option String × Option String)) : Db :=
  bodies.foldl
    (fun db b =>
      { db with
        emails := db.emails.map (fun r =>
          if keyMatch account b.1 r then
            { r with body_html := b.2.1, body_text := b.2.2,
                     updated_at := db.clock }
          else r)
        clock := db.clock + 1 })
    db

/-! ### Filter engine: compilation and matching -/

/-- Lowercasing, modelling str::to_lowercase at the character level (the
source only relies on it for case-insensitive matching). -/
def toLowerStr (s : String) : String :=
  ⟨s.data.map Char.toLower⟩

/-- Bool-valued list containment of a contiguous run, modelling
str::contains with a literal pattern. -/
def listContainsSeq (l p : List Char) : Bool :=
  match l with
  | [] => p.isEmpty
  | _ :: t => p.isPrefixOf l || listContainsSeq t p

/-- str::contains on strings. -/
def strContains (s pat : String) : Bool :=
  listContainsSeq s.toList pat.toList

/-- A compiled filter (CompiledFilter): either a compiled case-insensitive
regex or a lower-cased literal pattern. The regex engine is abstracted as the
compiled matcher function itself. -/
structure CompiledFilter where
  id : Int
  field : FilterField
  regex : Option (String → Bool)
  pattern_lower : Option String

/-- compile_filters: every filter of the list is compiled; is_regex picks the
branch, the enabled flag is not consulted. compileRegex models
RegexBuilder::new(p).case_insensitive(true).build().ok(). -/
def compileFilters (compileRegex : String → Option (String → Bool))
    (filters : List FilterPattern) : List CompiledFilter :=
  filters.map (fun f =>
    { id := f.id
      field := f.field
      regex := if f.is_regex then compileRegex f.pattern else none
      pattern_lower := if f.is_regex then none else some (toLowerStr f.pattern) })

/-- The per-filter match test inside match_filters. -/
def compiledMatches (f : CompiledFilter) (subject sender : String) : Bool :=
  match f.regex with
  | some re =>
    match f.field with
    | .subject => re subject
    | .sender => re sender
    | .any => re subject || re sender
  | none =>
    match f.pattern_lower with
    | some p =>
      match f.field with
      | .subject => strContains (toLowerStr subject) p
      | .sender => strContains (toLowerStr sender) p
      | .any => strContains (toLowerStr subject) p ||
          strContains (toLowerStr sender) p
    | none => false

/-- match_filters: ids of the compiled filters matching the message, in
filter order. -/
def matchFilters (subject sender : String)
    (filters : List CompiledFilter) : List Int :=
  (filters.filter (fun f => compiledMatches f subject sender)).map
    (fun f => f.id)

/-! ### filtered_emails insertion (INSERT OR IGNORE) -/

/-- INSERT OR IGNORE INTO filtered_emails (email_id, filter_id). -/
def insertIgnore (fl : List (Nat × Int)) (p : Nat × Int) : List (Nat × Int) :=
  if fl.contains p then fl else fl ++ [p]

/-- The insertion loop shared by refresh_filtered_emails and
refresh_filter_matches_for_account: for each row of the batch, insert one
association per matching compiled filter. -/
def insertBatchMatches (compiled : List CompiledFilter)
    (batch : List EmailRow) (fl : List (Nat × Int)) : List (Nat × Int) :=
  batch.foldl
    (fun fl r =>
      (matchFilters r.subject r.sender compiled).foldl
        (fun fl fid => insertIgnore fl (r.id, fid)) fl)
    fl

/-! ### filter cursor (filter_sync_state_v2, fixed scope) -/

/-- get_filter_last_email_id: missing row reads as 0. -/
def getFilterCursor (db : Db) (account : String) : Int :=
  match db.filterCursor.lookup account with
  | some v => v
  | none => 0

/-- set_filter_last_email_id: upsert of the cursor row. -/
def setFilterCursor (db : Db) (account : String) (v : Int) : Db :=
  { db with
    filterCursor :=
      if db.filterCursor.any (fun c => c.1 == account) then
        db.filterCursor.map (fun c => if c.1 == account then (c.1, v) else c)
      else db.filterCursor ++ [(account, v)] }

/-- SELECT id, uid, subject, sender FROM emails WHERE account = ? AND id > ?
ORDER BY id ASC LIMIT ?. -/
def selectBatch (emails : List EmailRow) (account : String) (lastId : Int)
    (chunkSize : Nat) : List EmailRow :=
  ((emails.filter (fun r =>
      r.account == account && decide (lastId < (r.id : Int)))).insertionSort
    IdAsc).take chunkSize

/-- Count of filtered_emails rows joined to this account's emails. -/
def filteredCountFor (db : Db) (account : String) : Nat :=
  (db.filtered.filter (fun p =>
    db.emails.any (fun r => r.id == p.1 && r.account == account))).length

/-- refresh_filtered_emails: one incremental unit of filter backfill. On
force_full, delete the account's filtered_emails rows and its cursor row;
then, if the account has no filtered rows while the cursor is positive, reset
the cursor to 0; load and compile all filters; select one chunk past the
cursor; trivially succeed with 0 on an empty chunk; otherwise insert the
matches, advance the cursor to the chunk's highest id, and return the chunk
length. -/
def refreshFilteredEmails (compileRegex : String → Option (String → Bool))
    (db : Db) (account : String) (chunkSize : Nat) (forceFull : Bool) :
    Nat × Db :=
  let db0 :=
    if forceFull then
      { db with
        filtered := db.filtered.filter (fun p =>
          !(db.emails.any (fun r => r.id == p.1 && r.account == account)))
        filterCursor := db.filterCursor.filter (fun c => c.1 != account) }
    else db
  let last0 := getFilterCursor db0 account
  let db1 :=
    if filteredCountFor db0 account == 0 && decide (0 < last0) then
      setFilterCursor db0 account 0
    else db0
  let lastId :=
    if filteredCountFor db0 account == 0 && decide (0 < last0) then 0 else last0
  let compiled := compileFilters compileRegex db1.filters
  let batch := selectBatch db1.emails account lastId chunkSize
  match batch.getLast? with
  | none => (0, db1)
  | some rl =>
    let db2 := { db1 with filtered := insertBatchMatches compiled batch db1.filtered }
    (batch.length, setFilterCursor db2 account (rl.id : Int))

/-! ### save_filters and its synchronous recomputation -/

/-- Lookup in the in-memory HashMap of existing filters, keyed by id. -/
def findById (l : List FilterPattern) (i : Int) : Option FilterPattern :=
  l.find? (fun f => f.id == i)

/-- Removal from that map. -/
def removeById (l : List FilterPattern) (i : Int) : List FilterPattern :=
  l.filter (fun f => f.id != i)

/-- The needs_refresh test of save_filters: the match-affecting fields
(pattern, regex mode, target field — compared through its string form, an
injective mapping) differ. -/
def changedB (prev f : FilterPattern) : Bool :=
  prev.pattern != f.pattern || prev.is_regex != f.is_regex ||
    !(decide (prev.field = f.field))

/-- The reconciliation loop of save_filters: returns (to_insert, to_update,
to_touch, leftover), where leftover are the stored filters absent from the
submitted set (to_delete). -/
def classifyFilters : List FilterPattern → List FilterPattern →
    List FilterPattern × List FilterPattern × List FilterPattern ×
      List FilterPattern
  | [], remaining => ([], [], [], remaining)
  | f :: rest, remaining =>
    match findById remaining f.id with
    | some prev =>
      let res := classifyFilters rest (removeById remaining f.id)
      if changedB prev f then
        (res.1, f :: res.2.1, res.2.2.1, res.2.2.2)
      else if prev.name != f.name || prev.enabled != f.enabled then
        (res.1, res.2.1, f :: res.2.2.1, res.2.2.2)
      else res
    | none =>
      let res := classifyFilters rest remaining
      (f :: res.1, res.2.1, res.2.2.1, res.2.2.2)

/-- The chunked full scan of refresh_filter_matches_for_account: from cursor
0, repeatedly select a chunk, insert its matches, and continue past the
chunk's maximum id until an empty chunk. The source's unbounded loop always
terminates because the remaining row count strictly decreases; the fuel
argument makes that explicit and is instantiated with more fuel than rows. -/
def refreshLoop (compiled : List CompiledFilter) (emails : List EmailRow)
    (account : String) (chunkSize : Nat) :
    Nat → Int → List (Nat × Int) → List (Nat × Int)
  | 0, _, fl => fl
  | fuel + 1, lastId, fl =>
    let batch := selectBatch emails account lastId chunkSize
    match batch.getLast? with
    | none => fl
    | some rl =>
      refreshLoop compiled emails account chunkSize fuel (rl.id : Int)
        (insertBatchMatches compiled batch fl)

/-- refresh_filter_matches_for_account: full synchronous scan of one
account's messages against the given (changed or inserted) filters only. -/
def refreshMatchesForAccount (compileRegex : String → Option (String → Bool))
    (db : Db) (account : String) (filters : List FilterPattern)
    (chunkSize : Nat) : Db :=
  if filters.isEmpty then db
  else
    { db with
      filtered := refreshLoop (compileFilters compileRegex filters) db.emails
        account chunkSize (db.emails.length + 1) 0 db.filtered }

/-- SELECT DISTINCT account FROM emails (first-occurrence order). -/
def filterAccounts (db : Db) : List String :=
  (db.emails.map (fun r => r.account)).dedup

/-- The UPDATE statement of save_filters applied to one stored filter row:
rows whose id matches the submitted filter receive its name, pattern, field,
regex mode and enabled flag. -/
def updOne (f g : FilterPattern) : FilterPattern :=
  if g.id == f.id then
    { g with name := f.name, pattern := f.pattern, field := f.field,
             is_regex := f.is_regex, enabled := f.enabled }
  else g

/-- Phase 1 of save_filters: DELETE FROM filter_patterns WHERE id = ? for
each removed rule; the rule's filtered_emails rows go with it (ON DELETE
CASCADE). -/
def deletePhase (db : Db) (toDelete : List Int) : Db :=
  { db with
    filters := db.filters.filter (fun f => !(toDelete.contains f.id))
    filtered := db.filtered.filter (fun p => !(toDelete.contains p.2)) }

/-- Phase 2 of save_filters: DELETE FROM filtered_emails WHERE filter_id = ?
for each rule whose match-relevant fields changed. -/
def clearMatchesPhase (db : Db) (updateIds : List Int) : Db :=
  { db with
    filtered := db.filtered.filter (fun p => !(updateIds.contains p.2)) }

/-- Phase 3 of save_filters: INSERT INTO filter_patterns for each new rule,
in submission order, each receiving the next fresh id; the collected rows
(with their fresh ids) join the recomputation list. -/
def insertPhase (db : Db) (toInsert : List FilterPattern) :
    Db × List FilterPattern :=
  toInsert.foldl
    (fun (acc : Db × List FilterPattern) f =>
      ({ acc.1 with
          filters := acc.1.filters ++ [{ f with id := acc.1.nextFilterId }]
          nextFilterId := acc.1.nextFilterId + 1 },
       acc.2 ++ [{ f with id := acc.1.nextFilterId }]))
    (db, [])

/-- Phase 4 of save_filters: UPDATE filter_patterns SET name, pattern, field,
is_regex, enabled WHERE id = ? for each changed or touched rule. -/
def updatePhase (db : Db) (toWrite : List FilterPattern) : Db :=
  toWrite.foldl
    (fun db f => { db with filters := db.filters.map (updOne f) }) db

/-- Phase 5 of save_filters: synchronous refresh_filter_matches_for_account
for every account (chunk size 500), skipped when no rule changed or was
inserted. -/
def refreshPhase (compileRegex : String → Option (String → Bool)) (db : Db)
    (refreshList : List FilterPattern) : Db :=
  if refreshList.isEmpty then db
  else
    (filterAccounts db).foldl
      (fun db acct =>
        refreshMatchesForAccount compileRegex db acct refreshList 500)
      db

/-- save_filters: reconcile the submitted rule set against the stored one,
delete removed rules (cascading their filtered_emails rows), clear the rows
of rules whose pattern/field/regex-mode changed, insert new rules with fresh
ids, apply updates, then synchronously recompute matches of the changed and
inserted rules for every account (chunk size 500), and return the persisted
set. -/
def saveFilters (compileRegex : String → Option (String → Bool)) (db : Db)
    (patterns : List FilterPattern) : List FilterPattern × Db :=
  let res := classifyFilters patterns db.filters
  let dbB := clearMatchesPhase
    (deletePhase db ((res.2.2.2).map (fun f => f.id)))
    ((res.2.1).map (fun f => f.id))
  let ins := insertPhase dbB res.1
  let dbD := updatePhase ins.1 (res.2.1 ++ res.2.2.1)
  let dbE := refreshPhase compileRegex dbD (res.2.1 ++ ins.2)
  (dbE.filters, dbE)

/-- The filters produced by the insertion loop of save_filters: each
to_insert entry receives the next fresh id in submission order. -/
def insertedFilters (nfid : Int) : List FilterPattern → List FilterPattern
  | [] => []
  | f :: rest => { f with id := nfid } :: insertedFilters (nfid + 1) rest

/-- The cumulative effect on one stored filter row of running the UPDATE
statement for every filter of the list. -/
def applyUpdates (L : List FilterPattern) (g : FilterPattern) : FilterPattern :=
  L.foldl (fun g f => updOne f g) g

/-! ### Sync orchestrator (gmail.rs, fetch_emails_since)

The IMAP server is an external collaborator; per the specification its search
capability is "fetch messages since cursor": since_uid = 0 issues ALL, and
since_uid > 0 issues a range starting at since_uid + 1, modelled as the
mailbox uids that are at least since_uid + 1. The orchestrator sorts the
resulting uid set ascending and walks it in chunks of batch_size, delivering
one callback per chunk; this model keeps the per-chunk uid lists, their
delivery order, and the returned (total, max uid seen). -/

/-- The uid search step of fetch_emails_since. -/
def searchUids (mailbox : List Nat) (sinceUid : Nat) : List Nat :=
  if 0 < sinceUid then mailbox.filter (fun u => decide (sinceUid + 1 ≤ u))
  else mailbox

/-- Result of fetch_emails_since: the chunks in delivery order, the total
count, and the maximum uid observed across all chunks. -/
structure FetchResult where
  chunks : List (List Nat)
  total : Nat
  maxUid : Option Nat
deriving DecidableEq, Repr

/-- The running maximum that fetch_emails_since threads through the chunk
loop: max_uid = Some(max_uid.map_or(last, max last)) for the chunk's last
element. -/
def chunkMaxUid (chunks : List (List Nat)) : Option Nat :=
  chunks.foldl
    (fun acc c =>
      match c.getLast? with
      | none => acc
      | some last =>
        some (match acc with
              | none => last
              | some cur => Nat.max cur last))
    none

/-- fetch_emails_since: search, sort ascending, early return on empty,
otherwise chunk at batch_size and deliver in order. -/
def fetchEmailsSince (mailbox : List Nat) (sinceUid batchSize : Nat) :
    FetchResult :=
  let uids := (searchUids mailbox sinceUid).insertionSort (· ≤ ·)
  if uids.isEmpty then { chunks := [], total := 0, maxUid := none }
  else
    let cs := chunksOf batchSize uids
    { chunks := cs, total := uids.length, maxUid := chunkMaxUid cs }

/-! ### Sync coordinator (lib.rs, gmail_sync_all_background)

The syncing set is a tokio Mutex-guarded HashSet; the contains/insert pair
runs with the lock held, so it is one atomic action, and any interleaving of
two concurrent start calls serializes into two successive startSync steps.
The executions counter counts spawned sync bodies; completion removes the
marker unconditionally, on the success and on the failure path alike. -/

structure SyncState where
  syncing : List String
  executions : Nat
deriving DecidableEq, Repr

/-- The atomic guarded section of gmail_sync_all_background: if the account
is already marked, return silently (false = no sync spawned); otherwise mark
it and spawn the sync (true). -/
def startSync (account : String) (s : SyncState) : SyncState × Bool :=
  if s.syncing.contains account then (s, false)
  else ({ syncing := account :: s.syncing, executions := s.executions + 1 },
        true)

/-- End of the spawned task: whatever the sync result (ok = true for the
complete path, false for the error path), the marker is removed. -/
def completeSync (account : String) (_ok : Bool) (s : SyncState) : SyncState :=
  { s with syncing := s.syncing.erase account }

/-! ## Generic list lemmas -/

theorem filter_map_of_fix {α : Type} {g : α → α} {p : α → Bool}
    (hp : ∀ r, p (g r) = p r) (hid : ∀ r, p r = true → g r = r)
    (l : List α) : (l.map g).filter p = l.filter p := by
  induction l with
  | nil => rfl
  | cons a t ih =>
    simp only [List.map_cons, List.filter_cons, hp a]
    cases h : p a with
    | true => simp [hid a h, ih]
    | false => simpa using ih

theorem filter_eq_singleton_of_key {α β : Type} [DecidableEq β]
    (key : α → β) (k : β) (p : α → Bool)
    (hp : ∀ x, p x = true ↔ key x = k) :
    ∀ (l : List α), (l.map key).Nodup →
      ∀ r ∈ l, p r = true → l.filter p = [r] := by
  intro l
  induction l with
  | nil => intro _ r hr; exact absurd hr (List.not_mem_nil r)
  | cons a t ih =>
    intro hnd r hr hpr
    simp only [List.map_cons, List.nodup_cons] at hnd
    rcases List.mem_cons.mp hr with rfl | hrt
    · have ht : t.filter p = [] := by
        rw [List.filter_eq_nil_iff]
        intro x hx hpx
        exact hnd.1 (((hp r).mp hpr) ▸ ((hp x).mp hpx) ▸ List.mem_map_of_mem key hx)
      simp [List.filter_cons, hpr, ht]
    · have hpa : p a = false := by
        cases hpa : p a with
        | false => rfl
        | true =>
          exact absurd (((hp a).mp hpa) ▸ ((hp r).mp hpr) ▸
            List.mem_map_of_mem key hrt) hnd.1
      simp [List.filter_cons, hpa, ih hnd.2 r hrt hpr]

/-! ## upsert_emails: supporting lemmas (claim C1) -/

theorem keyMatch_iff (account : String) (uid : Nat) (r : EmailRow) :
    keyMatch account uid r = true ↔ (r.account, r.uid) = (account, uid) := by
  simp [keyMatch, Prod.ext_iff, and_comm]

/-- The DO UPDATE arm preserves the row key. -/
theorem updRow_account (account mailbox : String) (e : GmailEmail)
    (clock : Nat) (r : EmailRow) :
    (updRow account mailbox e clock r).account = r.account := by
  unfold updRow
  by_cases h : keyMatch account e.uid r = true
  · have ha : r.account = account := by
      have := (keyMatch_iff account e.uid r).mp h
      exact congrArg Prod.fst this
    simp [h, ha]
  · simp [Bool.not_eq_true] at h
    simp [h]

theorem updRow_uid (account mailbox : String) (e : GmailEmail)
    (clock : Nat) (r : EmailRow) :
    (updRow account mailbox e clock r).uid = r.uid := by
  unfold updRow
  by_cases h : keyMatch account e.uid r = true
  · simp [h]
  · simp [Bool.not_eq_true] at h
    simp [h]

theorem updRow_id (account mailbox : String) (e : GmailEmail)
    (clock : Nat) (r : EmailRow) :
    (updRow account mailbox e clock r).id = r.id := by
  unfold updRow
  by_cases h : keyMatch account e.uid r = true
  · simp [h]
  · simp [Bool.not_eq_true] at h
    simp [h]

theorem updRow_keyMatch (account mailbox : String) (e : GmailEmail)
    (clock : Nat) (a2 : String) (u2 : Nat) (r : EmailRow) :
    keyMatch a2 u2 (updRow account mailbox e clock r) = keyMatch a2 u2 r := by
  simp [keyMatch, updRow_account, updRow_uid]

theorem updRow_of_ne (account mailbox : String) (e : GmailEmail)
    (clock : Nat) (r : EmailRow)
    (h : keyMatch account e.uid r = false) :
    updRow account mailbox e clock r = r := by
  simp [updRow, h]

theorem keyMatch_newRow (account mailbox : String) (e : GmailEmail)
    (id clock : Nat) :
    keyMatch account e.uid (newRow account mailbox e id clock) = true := by
  simp [keyMatch, newRow]

/-- After one upsert of e, the key (account, e.uid) holds exactly one row,
and its mutable columns carry e's values. -/
theorem rowsFor_upsertOne_self (db : Db)
    (hnd : (db.emails.map (fun r => (r.account, r.uid))).Nodup)
    (a m : String) (e : GmailEmail) :
    ∃ r : EmailRow, rowsFor (upsertOne a m db e) a e.uid = [r] ∧
      r.subject = e.subject ∧ r.sender = e.sender ∧ r.date = e.date ∧
      r.date_epoch = e.date_epoch ∧ r.mailbox = m ∧ r.is_read = e.is_read ∧
      r.message_id = e.message_id := by
  by_cases hany : db.emails.any (keyMatch a e.uid) = true
  · obtain ⟨r0, hr0, hkm⟩ := List.any_eq_true.mp hany
    have hsingle : db.emails.filter (keyMatch a e.uid) = [r0] :=
      filter_eq_singleton_of_key (fun r => (r.account, r.uid)) (a, e.uid)
        (keyMatch a e.uid) (keyMatch_iff a e.uid) db.emails hnd r0 hr0 hkm
    refine ⟨updRow a m e db.clock r0, ?_, ?_⟩
    · have hmap : (db.emails.map (updRow a m e db.clock)).filter
          (keyMatch a e.uid) =
          (db.emails.filter (keyMatch a e.uid)).map (updRow a m e db.clock) := by
        rw [List.filter_map]
        congr 1
        apply List.filter_congr
        intro x _
        exact updRow_keyMatch a m e db.clock a e.uid x
      simp only [rowsFor, upsertOne, hany, if_true]
      rw [hmap, hsingle, List.map_cons, List.map_nil]
    · simp [updRow, hkm]
  · refine ⟨newRow a m e db.nextId db.clock, ?_, by simp [newRow], by simp [newRow],
      by simp [newRow], by simp [newRow], by simp [newRow], by simp [newRow],
      by simp [newRow]⟩
    have hnil : db.emails.filter (keyMatch a e.uid) = [] := by
      rw [List.filter_eq_nil_iff]
      intro x hx hpx
      exact hany (List.any_eq_true.mpr ⟨x, hx, hpx⟩)
    simp only [rowsFor, upsertOne, hany, if_false, Bool.false_eq_true,
      List.filter_append, hnil]
    simp [keyMatch_newRow]

/-- An upsert of e leaves every other key's rows untouched. -/
theorem rowsFor_upsertOne_ne (db : Db) (a m : String) (e : GmailEmail)
    (a2 : String) (u2 : Nat) (hne : ¬(a2 = a ∧ u2 = e.uid)) :
    rowsFor (upsertOne a m db e) a2 u2 = rowsFor db a2 u2 := by
  by_cases hany : db.emails.any (keyMatch a e.uid) = true
  · simp only [rowsFor, upsertOne, hany, if_true]
    apply filter_map_of_fix
    · intro r
      exact updRow_keyMatch a m e db.clock a2 u2 r
    · intro r hr
      apply updRow_of_ne
      cases hk : keyMatch a e.uid r with
      | false => rfl
      | true =>
        exfalso
        have h1 := (keyMatch_iff a e.uid r).mp hk
        have h2 := (keyMatch_iff a2 u2 r).mp hr
        have h3 : (a2, u2) = (a, e.uid) := h2.symm.trans h1
        exact hne ⟨(Prod.ext_iff.mp h3).1, (Prod.ext_iff.mp h3).2⟩
  · simp only [rowsFor, upsertOne, hany, if_false, Bool.false_eq_true,
      List.filter_append]
    have : keyMatch a2 u2 (newRow a m e db.nextId db.clock) = false := by
      cases hk : keyMatch a2 u2 (newRow a m e db.nextId db.clock) with
      | false => rfl
      | true =>
        exfalso
        have h1 := (keyMatch_iff a2 u2 _).mp hk
        simp [newRow] at h1
        exact hne ⟨h1.1.symm, h1.2.symm⟩
    simp [this]

/-- One upsert preserves the storage invariants. -/
theorem upsertOne_wf (db : Db) (hwf : DbWf db) (a m : String)
    (e : GmailEmail) : DbWf (upsertOne a m db e) := by
  by_cases hany : db.emails.any (keyMatch a e.uid) = true
  · have hkeys : (db.emails.map (updRow a m e db.clock)).map
        (fun r => (r.account, r.uid)) =
        db.emails.map (fun r => (r.account, r.uid)) := by
      rw [List.map_map]
      apply List.map_congr_left
      intro r _
      simp [Function.comp, updRow_account, updRow_uid]
    constructor
    · simp only [upsertOne, hany, if_true]
      rw [hkeys]; exact hwf.keysNodup
    · simp only [upsertOne, hany, if_true]
      rw [List.pairwise_map]
      simp only [updRow_id]
      exact hwf.idsSorted
    · simp only [upsertOne, hany, if_true]
      intro r hr
      obtain ⟨r0, hr0, rfl⟩ := List.mem_map.mp hr
      rw [updRow_id]
      exact hwf.idsLt r0 hr0
    · simp only [upsertOne, hany, if_true]
      intro r hr
      obtain ⟨r0, hr0, rfl⟩ := List.mem_map.mp hr
      rw [updRow_id]
      exact hwf.idsPos r0 hr0
    · simp only [upsertOne, hany, if_true]
      exact hwf.nextIdPos
    · simp only [upsertOne, hany, if_true]
      exact hwf.filterIdsLt
    · simp only [upsertOne, hany, if_true]
      exact hwf.filterIdsNodup
    · simp only [upsertOne, hany, if_true]
      exact hwf.filteredLive
  · have hnotin : (a, e.uid) ∉ db.emails.map (fun r => (r.account, r.uid)) := by
      intro hmem
      obtain ⟨r, hr, hkey⟩ := List.mem_map.mp hmem
      exact hany (List.any_eq_true.mpr ⟨r, hr, (keyMatch_iff a e.uid r).mpr hkey⟩)
    constructor
    · simp only [upsertOne, hany, if_false, Bool.false_eq_true, List.map_append]
      rw [List.nodup_append]
      refine ⟨hwf.keysNodup, by simp, ?_⟩
      intro x hx hx2
      simp only [List.map_cons, List.map_nil, List.mem_singleton, newRow] at hx2
      subst hx2
      exact hnotin hx
    · simp only [upsertOne, hany, if_false, Bool.false_eq_true]
      rw [List.pairwise_append]
      refine ⟨hwf.idsSorted, by simp, ?_⟩
      intro x hx y hy
      simp only [List.mem_singleton] at hy
      subst hy
      simpa [newRow] using hwf.idsLt x hx
    · simp only [upsertOne, hany, if_false, Bool.false_eq_true]
      intro r hr
      rcases List.mem_append.mp hr with h | h
      · exact Nat.lt_succ_of_lt (hwf.idsLt r h)
      · simp only [List.mem_singleton] at h
        subst h
        simp [newRow]
    · simp only [upsertOne, hany, if_false, Bool.false_eq_true]
      intro r hr
      rcases List.mem_append.mp hr with h | h
      · exact hwf.idsPos r h
      · simp only [List.mem_singleton] at h
        subst h
        simpa [newRow] using hwf.nextIdPos
    · simp only [upsertOne, hany, if_false, Bool.false_eq_true]
      exact Nat.le_succ_of_le hwf.nextIdPos
    · simp only [upsertOne, hany, if_false, Bool.false_eq_true]
      exact hwf.filterIdsLt
    · simp only [upsertOne, hany, if_false, Bool.false_eq_true]
      exact hwf.filterIdsNodup
    · simp only [upsertOne, hany, if_false, Bool.false_eq_true]
      exact hwf.filteredLive

theorem upsertEmails_wf (db : Db) (hwf : DbWf db) (a m : String)
    (L : List GmailEmail) : DbWf (upsertEmails db a m L) := by
  induction L generalizing db with
  | nil => exact hwf
  | cons x t ih => exact ih (upsertOne a m db x) (upsertOne_wf db hwf a m x)

theorem upsertEmails_cons (db : Db) (a m : String) (x : GmailEmail)
    (t : List GmailEmail) :
    upsertEmails db a m (x :: t) = upsertEmails (upsertOne a m db x) a m t :=
  rfl

theorem upsertEmails_append (db : Db) (a m : String)
    (L1 L2 : List GmailEmail) :
    upsertEmails db a m (L1 ++ L2) =
      upsertEmails (upsertEmails db a m L1) a m L2 :=
  List.foldl_append _ _ L1 L2

/-- A key that holds a row keeps holding a row across upserts. -/
theorem rowsFor_upsertOne_nonempty (db : Db)
    (hnd : (db.emails.map (fun r => (r.account, r.uid))).Nodup)
    (a m : String) (e : GmailEmail) (u : Nat)
    (h : rowsFor db a u ≠ []) :
    rowsFor (upsertOne a m db e) a u ≠ [] := by
  by_cases hu : u = e.uid
  · subst hu
    obtain ⟨r, hr, _, _, _, _, _, _, _⟩ := rowsFor_upsertOne_self db hnd a m e
    rw [hr]; simp
  · rw [rowsFor_upsertOne_ne db a m e a u (fun hc => hu hc.2)]
    exact h

/-- After upserting a batch, every uid of the batch holds a row. -/
theorem rowsFor_upsertEmails_nonempty (db : Db) (hwf : DbWf db)
    (a m : String) (L : List GmailEmail) (u : Nat)
    (h : u ∈ L.map (fun x => x.uid) ∨ rowsFor db a u ≠ []) :
    rowsFor (upsertEmails db a m L) a u ≠ [] := by
  induction L generalizing db with
  | nil =>
    rcases h with h | h
    · simp at h
    · exact h
  | cons x t ih =>
    rw [upsertEmails_cons]
    rcases h with h | h
    · simp only [List.map_cons, List.mem_cons] at h
      rcases h with h | h
      · refine ih (upsertOne a m db x) (upsertOne_wf db hwf a m x) (Or.inr ?_)
        subst h
        obtain ⟨r, hr, _⟩ := rowsFor_upsertOne_self db hwf.keysNodup a m x
        rw [hr]; simp
      · exact ih (upsertOne a m db x) (upsertOne_wf db hwf a m x) (Or.inl h)
    · exact ih (upsertOne a m db x) (upsertOne_wf db hwf a m x)
        (Or.inr (rowsFor_upsertOne_nonempty db hwf.keysNodup a m x u h))

/-- Upserting messages whose uids all differ from u leaves key (a, u) alone. -/
theorem rowsFor_upsertEmails_ne (db : Db) (a m : String)
    (L : List GmailEmail) (u : Nat) (h : ∀ x ∈ L, x.uid ≠ u) :
    rowsFor (upsertEmails db a m L) a u = rowsFor db a u := by
  induction L generalizing db with
  | nil => rfl
  | cons x t ih =>
    rw [upsertEmails_cons, ih _ (fun y hy => h y (List.mem_cons_of_mem x hy)),
      rowsFor_upsertOne_ne db a m x a u
        (fun hc => h x (List.mem_cons_self x t) hc.2.symm)]

/-- Relation between two database states capturing that the step from the
first to the second never writes body columns: no (account, uid) key is
lost, and every row of the second either carries the body columns of the
matching row of the first, or its key is absent from the first (the row is
new) and it has no cached body. The upsert statement has no body columns in
its SET list and inserts NULL bodies, so it links its output to its input. -/
def BodyLink (dbA dbB : Db) : Prop :=
  (∀ r0 ∈ dbA.emails, ∃ r ∈ dbB.emails,
    r.account = r0.account ∧ r.uid = r0.uid) ∧
  ∀ r ∈ dbB.emails,
    (∃ r0 ∈ dbA.emails, r0.account = r.account ∧ r0.uid = r.uid ∧
      r.body_html = r0.body_html ∧ r.body_text = r0.body_text) ∨
    ((∀ r0 ∈ dbA.emails, ¬(r0.account = r.account ∧ r0.uid = r.uid)) ∧
      r.body_html = none ∧ r.body_text = none)

theorem bodyLink_trans {dbA dbB dbC : Db} (h1 : BodyLink dbA dbB)
    (h2 : BodyLink dbB dbC) : BodyLink dbA dbC := by
  constructor
  · intro r0 hr0
    obtain ⟨r1, hr1, ha1, hu1⟩ := h1.1 r0 hr0
    obtain ⟨r2, hr2, ha2, hu2⟩ := h2.1 r1 hr1
    exact ⟨r2, hr2, ha2.trans ha1, hu2.trans hu1⟩
  · intro r hr
    rcases h2.2 r hr with ⟨r1, hr1, ha, hu, hh, ht⟩ | ⟨habs, hh, ht⟩
    · rcases h1.2 r1 hr1 with ⟨r0, hr0, ha0, hu0, hh0, ht0⟩ | ⟨habs0, hh0, ht0⟩
      · exact Or.inl ⟨r0, hr0, ha0.trans ha, hu0.trans hu,
          hh.trans hh0, ht.trans ht0⟩
      · refine Or.inr ⟨?_, hh.trans hh0, ht.trans ht0⟩
        intro r0 hr0 hc
        exact habs0 r0 hr0 ⟨hc.1.trans ha.symm, hc.2.trans hu.symm⟩
    · refine Or.inr ⟨?_, hh, ht⟩
      intro r0 hr0 hc
      obtain ⟨r1, hr1, ha1, hu1⟩ := h1.1 r0 hr0
      exact habs r1 hr1 ⟨ha1.trans hc.1, hu1.trans hc.2⟩

theorem bodyLink_upsertOne (db : Db) (a m : String) (e : GmailEmail) :
    BodyLink db (upsertOne a m db e) := by
  by_cases hany : db.emails.any (keyMatch a e.uid) = true
  · constructor
    · intro r0 hr0
      refine ⟨updRow a m e db.clock r0, ?_,
        updRow_account a m e db.clock r0, updRow_uid a m e db.clock r0⟩
      simp only [upsertOne, hany, if_true]
      exact List.mem_map_of_mem _ hr0
    · intro r hr
      simp only [upsertOne, hany, if_true] at hr
      obtain ⟨r0, hr0, rfl⟩ := List.mem_map.mp hr
      refine Or.inl ⟨r0, hr0, (updRow_account a m e db.clock r0).symm,
        (updRow_uid a m e db.clock r0).symm, ?_, ?_⟩ <;>
      · unfold updRow
        by_cases h : keyMatch a e.uid r0 = true
        · simp [h]
        · simp [Bool.not_eq_true] at h
          simp [h]
  · constructor
    · intro r0 hr0
      refine ⟨r0, ?_, rfl, rfl⟩
      simp only [upsertOne, hany, if_false, Bool.false_eq_true]
      exact List.mem_append_left _ hr0
    · intro r hr
      simp only [upsertOne, hany, if_false, Bool.false_eq_true,
        List.mem_append] at hr
      rcases hr with h | h
      · exact Or.inl ⟨r, h, rfl, rfl, rfl, rfl⟩
      · simp only [List.mem_singleton] at h
        subst h
        refine Or.inr ⟨?_, rfl, rfl⟩
        intro r0 hr0 hc
        apply hany
        rw [List.any_eq_true]
        refine ⟨r0, hr0, ?_⟩
        unfold keyMatch
        have h1 : r0.account = a := hc.1
        have h2 : r0.uid = e.uid := hc.2
        simp [h1, h2]

theorem bodyLink_upsertEmails (db : Db) (a m : String)
    (L : List GmailEmail) : BodyLink db (upsertEmails db a m L) := by
  induction L generalizing db with
  | nil =>
    exact ⟨fun r0 hr0 => ⟨r0, hr0, rfl, rfl⟩,
      fun r hr => Or.inl ⟨r, hr, rfl, rfl, rfl, rfl⟩⟩
  | cons x t ih =>
    rw [upsertEmails_cons]
    exact bodyLink_trans (bodyLink_upsertOne db a m x) (ih (upsertOne a m db x))

/-- Claim C1: for every account, mailbox and batch of messages, calling
upsert_emails twice with the same (account, remote uid) pairs (other fields
possibly varying) leaves exactly one row per pair, whose subject, sender,
date, date epoch, mailbox and read flag carry the values of the last
delivery, and the upserts leave the cached body columns (body_html,
body_text) unchanged: no original (account, uid) key is lost, and every row
after the two upserts either carries the body columns of the matching
original row, or its key is absent from the original state (the row is new
to this delivery) and it has no cached body. -/
theorem c1_upsert_idempotent
    (db : Db) (hwf : DbWf db) (a m : String) (L1 L2 : List GmailEmail)
    (_hkeys : L1.map (fun x => x.uid) = L2.map (fun x => x.uid))
    (hnd : (L2.map (fun x => x.uid)).Nodup)
    (e : GmailEmail) (he : e ∈ L2) :
    (∃ r : EmailRow,
        rowsFor (upsertEmails (upsertEmails db a m L1) a m L2) a e.uid = [r] ∧
        r.subject = e.subject ∧ r.sender = e.sender ∧ r.date = e.date ∧
        r.date_epoch = e.date_epoch ∧ r.mailbox = m ∧
        r.is_read = e.is_read) ∧
    BodyLink db (upsertEmails (upsertEmails db a m L1) a m L2) := by
  set db1 := upsertEmails db a m L1 with hdb1
  have hwf1 : DbWf db1 := upsertEmails_wf db hwf a m L1
  obtain ⟨P, S, rfl⟩ := List.append_of_mem he
  have hnotS : ∀ x ∈ S, x.uid ≠ e.uid := by
    intro x hx hux
    rw [List.map_append, List.map_cons, List.nodup_append] at hnd
    exact (List.nodup_cons.mp hnd.2.1).1
      (hux ▸ List.mem_map_of_mem (fun x => x.uid) hx)
  constructor
  · have hrw : upsertEmails db1 a m (P ++ e :: S) =
        upsertEmails (upsertOne a m (upsertEmails db1 a m P) e) a m S := by
      rw [upsertEmails_append]
      rfl
    set dbP := upsertEmails db1 a m P with hdbP
    have hwfP : DbWf dbP := upsertEmails_wf db1 hwf1 a m P
    obtain ⟨r, hr, h1, h2, h3, h4, h5, h6, _⟩ :=
      rowsFor_upsertOne_self dbP hwfP.keysNodup a m e
    refine ⟨r, ?_, h1, h2, h3, h4, h5, h6⟩
    rw [hrw, rowsFor_upsertEmails_ne _ a m S e.uid hnotS]
    exact hr
  · exact bodyLink_trans (bodyLink_upsertEmails db a m L1)
      (bodyLink_upsertEmails db1 a m (P ++ e :: S))

/-- Concrete database and messages instantiating claim C1: the stored row
for key (a, 7) already has cached bodies, which the two deliveries must not
disturb. -/
def c1RowCached : EmailRow :=
  { id := 1, uid := 7, message_id := "m0", subject := "old subject",
    sender := "carol@x.com", date := "d0", date_epoch := 4,
    mailbox := "INBOX", account := "a", is_read := false,
    body_html := some "<p>cached</p>", body_text := some "cached",
    updated_at := 0 }

def c1DbBody : Db :=
  { emails := [c1RowCached], nextId := 2, filters := [], nextFilterId := 1,
    filtered := [], filterCursor := [], clock := 0 }

def c1MsgFirst : GmailEmail :=
  { uid := 7, message_id := "m1", subject := "first subject",
    sender := "alice@x.com", date := "d1", date_epoch := 5, is_read := false }

def c1MsgSecond : GmailEmail :=
  { uid := 7, message_id := "m2", subject := "second subject",
    sender := "bob@x.com", date := "d2", date_epoch := 6, is_read := true }

theorem c1DbBody_wf : DbWf c1DbBody :=
  ⟨by decide, by decide, by decide, by decide, by decide, by decide,
   by decide, by decide⟩

/-- Witness for claim C1 at a concrete input with a pre-existing cached
body: both deliveries overwrite the mutable fields of the stored row, and a
direct evaluation confirms the cached bodies survive them. -/
theorem c1_upsert_idempotent_witness :
    DbWf c1DbBody ∧
    (∀ r ∈ (upsertEmails (upsertEmails c1DbBody "a" "INBOX" [c1MsgFirst])
        "a" "INBOX" [c1MsgSecond]).emails,
      r.body_html = some "<p>cached</p>" ∧ r.body_text = some "cached") ∧
    ((∃ r : EmailRow,
        rowsFor (upsertEmails (upsertEmails c1DbBody "a" "INBOX" [c1MsgFirst])
          "a" "INBOX" [c1MsgSecond]) "a" c1MsgSecond.uid = [r] ∧
        r.subject = c1MsgSecond.subject ∧ r.sender = c1MsgSecond.sender ∧
        r.date = c1MsgSecond.date ∧ r.date_epoch = c1MsgSecond.date_epoch ∧
        r.mailbox = "INBOX" ∧ r.is_read = c1MsgSecond.is_read) ∧
      BodyLink c1DbBody (upsertEmails (upsertEmails c1DbBody "a" "INBOX"
        [c1MsgFirst]) "a" "INBOX" [c1MsgSecond])) :=
  ⟨c1DbBody_wf, by decide,
   c1_upsert_idempotent c1DbBody c1DbBody_wf "a" "INBOX" [c1MsgFirst]
     [c1MsgSecond] rfl (by decide) c1MsgSecond (by decide)⟩

/-! ## Claim C2: the enabled flag during backfill -/

theorem setFilterCursor_emails (db : Db) (a : String) (v : Int) :
    (setFilterCursor db a v).emails = db.emails := rfl

theorem setFilterCursor_filters (db : Db) (a : String) (v : Int) :
    (setFilterCursor db a v).filters = db.filters := rfl

theorem setFilterCursor_filtered (db : Db) (a : String) (v : Int) :
    (setFilterCursor db a v).filtered = db.filtered := rfl

/-- Compilation does not read the enabled flag. -/
theorem compileFilters_enabled (cr : String → Option (String → Bool))
    (g : FilterPattern → Bool) (fs : List FilterPattern) :
    compileFilters cr (fs.map (fun f => { f with enabled := g f })) =
      compileFilters cr fs := by
  unfold compileFilters
  rw [List.map_map]
  rfl

/-- A database with the enabled flags of its filters rewritten by g. -/
def flipEnabled (g : FilterPattern → Bool) (db : Db) : Db :=
  { db with filters := db.filters.map (fun f => { f with enabled := g f }) }

/-- A regex engine on which no pattern compiles; usable wherever the filters
involved are substring filters, which never consult the engine. -/
def noRegex : String → Option (String → Bool) := fun _ => none

/-- Row builder for the concrete scenarios below. -/
def mkRow (i u : Nat) (subj snd acct : String) (epoch : Int) : EmailRow :=
  { id := i, uid := u, message_id := "m", subject := subj, sender := snd,
    date := "d", date_epoch := epoch, mailbox := "INBOX", account := acct,
    is_read := false, body_html := none, body_text := none, updated_at := 0 }

/-- Filter builder for the concrete scenarios below. -/
def mkFilter (i : Int) (pat : String) (fld : FilterField)
    (re enb : Bool) : FilterPattern :=
  { id := i, name := "f", pattern := pat, field := fld, is_regex := re,
    enabled := enb }

/-- Message and disabled filter instantiating claim C2. -/
def c2Db : Db :=
  { emails := [mkRow 1 10 "Hello World" "x@y.com" "a" 1]
    nextId := 2
    filters := [mkFilter 1 "hello" .subject false false]
    nextFilterId := 2
    filtered := []
    filterCursor := []
    clock := 0 }

/-- Counterexample to claim C2 as stated: the only stored filter is disabled
(enabled = false), yet refresh_filtered_emails records the FilteredMessage
row (message id 1, filter id 1) for it. compile_filters and match_filters
never consult the enabled flag. -/
theorem c2_counterexample :
    (∀ f ∈ c2Db.filters, f.enabled = false) ∧
    ((refreshFilteredEmails noRegex c2Db "a" 10 false).2).filtered =
      [(1, 1)] := by
  constructor
  · decide
  · decide

/-- Claim C2 (amended): during filter backfill all stored filters are
compiled and matched regardless of their enabled flag; rewriting the enabled
flags of the stored filters arbitrarily changes neither the outcome of
match_filters nor the processed count and recorded FilteredMessage rows of
refresh_filtered_emails. -/
theorem c2_enabled_flag_ignored (cr : String → Option (String → Bool))
    (g : FilterPattern → Bool) :
    (∀ (subject sender : String) (fs : List FilterPattern),
      matchFilters subject sender
          (compileFilters cr (fs.map (fun f => { f with enabled := g f }))) =
        matchFilters subject sender (compileFilters cr fs)) ∧
    (∀ (db : Db) (a : String) (c : Nat) (force : Bool),
      (refreshFilteredEmails cr (flipEnabled g db) a c force).1 =
          (refreshFilteredEmails cr db a c force).1 ∧
      ((refreshFilteredEmails cr (flipEnabled g db) a c force).2).filtered =
          ((refreshFilteredEmails cr db a c force).2).filtered) := by
  constructor
  · intro subject sender fs
    rw [compileFilters_enabled]
  · intro db a c force
    cases db with
    | mk E nI F nF FL FC CL =>
      have hcomp := compileFilters_enabled cr g F
      simp only [flipEnabled]
      simp only [refreshFilteredEmails, apply_ite Db.emails,
        apply_ite Db.filters, apply_ite Db.filtered, apply_ite Db.filterCursor,
        setFilterCursor_emails, setFilterCursor_filters,
        setFilterCursor_filtered, getFilterCursor, filteredCountFor, hcomp]
      split <;>
        simp [apply_ite Db.filtered, setFilterCursor_filtered, hcomp]

/-! ## Claim C3: chunked backfill vs one unbounded pass -/

/-- Three messages of one account, of which only the third (id 3) matches the
single enabled substring filter (id 1); cursor 0, no recorded matches. -/
def c3Db : Db :=
  { emails := [mkRow 1 10 "aaa" "x@y.com" "a" 1,
               mkRow 2 11 "bbb" "x@y.com" "a" 1,
               mkRow 3 12 "invoice due" "x@y.com" "a" 1]
    nextId := 4
    filters := [mkFilter 1 "invoice" .subject false true]
    nextFilterId := 2
    filtered := []
    filterCursor := []
    clock := 0 }

/-- One refresh_filtered_emails call with chunk size 1 (state part). -/
def c3Step (db : Db) : Db :=
  (refreshFilteredEmails noRegex db "a" 1 false).2

/-- Claim C3 fails on the code: with chunk size 1 (smaller than the message
count 3) the backfill livelocks. One unbounded pass (chunk size 3) records
the match (3, 1); but every chunked call processes only message 1 again —
after the first call the cursor is 1 while the account still has zero
filtered rows, so the next call resets the cursor to 0 (the inconsistency
heuristic of refresh_filtered_emails cannot tell an interrupted recomputation
from a prefix with no matches), reprocesses message 1, and returns processed
count 1. Hence the iterated chunked refresh never reaches messages 2 and 3,
never produces the unbounded pass's FilteredMessage set, and never returns a
processed count of 0. -/
theorem c3_chunked_backfill_livelock :
    ((refreshFilteredEmails noRegex c3Db "a" 3 false).2).filtered = [(3, 1)] ∧
    (∀ n : Nat,
      (refreshFilteredEmails noRegex (c3Step^[n] c3Db) "a" 1 false).1 = 1) ∧
    (∀ n : Nat, (c3Step^[n] c3Db).filtered = []) := by
  have hfix : c3Step (c3Step c3Db) = c3Step c3Db := by decide
  have hiter : ∀ n : Nat, c3Step^[n + 1] c3Db = c3Step c3Db := by
    intro n
    induction n with
    | zero => rfl
    | succ k ih =>
      rw [Function.iterate_succ_apply', ih, hfix]
  refine ⟨by decide, ?_, ?_⟩
  · intro n
    cases n with
    | zero => decide
    | succ k =>
      rw [hiter k]
      decide
  · intro n
    cases n with
    | zero => decide
    | succ k =>
      rw [hiter k]
      decide

/-! ## Shared lemmas about batch selection and match insertion -/

theorem mem_insertIgnore (fl : List (Nat × Int)) (q p : Nat × Int) :
    p ∈ insertIgnore fl q ↔ p ∈ fl ∨ p = q := by
  unfold insertIgnore
  by_cases h : fl.contains q = true
  · have hq : q ∈ fl := List.elem_iff.mp h
    simp only [h, if_true]
    constructor
    · exact Or.inl
    · rintro (hp | rfl)
      · exact hp
      · exact hq
  · have hq : q ∉ fl := fun hm => h (List.elem_iff.mpr hm)
    simp [h, hq, List.mem_append]

theorem mem_foldl_insertIgnore (fids : List Int) (rid : Nat)
    (fl : List (Nat × Int)) (p : Nat × Int) :
    p ∈ fids.foldl (fun fl2 fid => insertIgnore fl2 (rid, fid)) fl ↔
      p ∈ fl ∨ ∃ fid ∈ fids, p = (rid, fid) := by
  induction fids generalizing fl with
  | nil => simp
  | cons i t ih =>
    rw [List.foldl_cons, ih, mem_insertIgnore]
    constructor
    · rintro ((hp | rfl) | ⟨fid, hfid, rfl⟩)
      · exact Or.inl hp
      · exact Or.inr ⟨i, List.mem_cons_self i t, rfl⟩
      · exact Or.inr ⟨fid, List.mem_cons_of_mem i hfid, rfl⟩
    · rintro (hp | ⟨fid, hfid, rfl⟩)
      · exact Or.inl (Or.inl hp)
      · rcases List.mem_cons.mp hfid with rfl | hfid
        · exact Or.inl (Or.inr rfl)
        · exact Or.inr ⟨fid, hfid, rfl⟩

theorem mem_insertBatchMatches (compiled : List CompiledFilter)
    (batch : List EmailRow) (fl : List (Nat × Int)) (p : Nat × Int) :
    p ∈ insertBatchMatches compiled batch fl ↔
      p ∈ fl ∨ ∃ r ∈ batch, p.1 = r.id ∧
        p.2 ∈ matchFilters r.subject r.sender compiled := by
  induction batch generalizing fl with
  | nil => simp [insertBatchMatches]
  | cons r t ih =>
    unfold insertBatchMatches
    rw [List.foldl_cons]
    have := ih ((matchFilters r.subject r.sender compiled).foldl
      (fun fl2 fid => insertIgnore fl2 (r.id, fid)) fl)
    unfold insertBatchMatches at this
    rw [this, mem_foldl_insertIgnore]
    constructor
    · rintro ((hp | ⟨fid, hfid, rfl⟩) | ⟨s, hs, h1, h2⟩)
      · exact Or.inl hp
      · exact Or.inr ⟨r, List.mem_cons_self r t, rfl, hfid⟩
      · exact Or.inr ⟨s, List.mem_cons_of_mem r hs, h1, h2⟩
    · rintro (hp | ⟨s, hs, h1, h2⟩)
      · exact Or.inl (Or.inl hp)
      · rcases List.mem_cons.mp hs with rfl | hs
        · exact Or.inl (Or.inr ⟨p.2, h2, by rw [← h1]⟩)
        · exact Or.inr ⟨s, hs, h1, h2⟩

theorem mem_matchFilters (subject sender : String)
    (compiled : List CompiledFilter) (fid : Int) :
    fid ∈ matchFilters subject sender compiled ↔
      ∃ f ∈ compiled, compiledMatches f subject sender = true ∧
        f.id = fid := by
  unfold matchFilters
  simp only [List.mem_map, List.mem_filter]
  constructor
  · rintro ⟨f, ⟨hf, hm⟩, rfl⟩
    exact ⟨f, hf, hm, rfl⟩
  · rintro ⟨f, hf, hm, rfl⟩
    exact ⟨f, ⟨hf, hm⟩, rfl⟩

/-- Under the representation invariant (rows in strictly increasing id
order), the ORDER BY id ASC of the batch select is the identity. -/
theorem selectBatch_of_sorted (emails : List EmailRow)
    (hs : emails.Pairwise (fun r s => r.id < s.id)) (account : String)
    (lastId : Int) (chunkSize : Nat) :
    selectBatch emails account lastId chunkSize =
      (emails.filter (fun r =>
        r.account == account && decide (lastId < (r.id : Int)))).take
        chunkSize := by
  unfold selectBatch
  congr 1
  apply List.Sorted.insertionSort_eq
  exact (hs.filter _).imp (fun h => Nat.le_of_lt h)

/-- When every id is positive and the cursor is 0, the batch select of a
chunk at least as large as the account keeps exactly the account's rows. -/
theorem selectBatch_all (emails : List EmailRow)
    (hs : emails.Pairwise (fun r s => r.id < s.id))
    (hpos : ∀ r ∈ emails, 1 ≤ r.id) (account : String) (chunkSize : Nat)
    (hc : (emails.filter (fun r => r.account == account)).length ≤ chunkSize) :
    selectBatch emails account 0 chunkSize =
      emails.filter (fun r => r.account == account) := by
  rw [selectBatch_of_sorted emails hs]
  have hfeq : emails.filter (fun r =>
      r.account == account && decide ((0 : Int) < (r.id : Int))) =
      emails.filter (fun r => r.account == account) := by
    apply List.filter_congr
    intro r hr
    have : (0 : Int) < (r.id : Int) := by
      have := hpos r hr
      omega
    simp [this]
  rw [hfeq]
  exact List.take_of_length_le hc

/-! ## Claim C4: cursor rewind on detected inconsistency -/

/-- Two messages of one account, of which only the second (id 2) matches the
single filter; no recorded matches, but a nonzero (stale) filter cursor. -/
def c4Db : Db :=
  { emails := [mkRow 1 10 "bbb" "x@y.com" "a" 1,
               mkRow 2 11 "invoice due" "x@y.com" "a" 1]
    nextId := 3
    filters := [mkFilter 1 "invoice" .subject false true]
    nextFilterId := 2
    filtered := []
    filterCursor := [("a", 999)]
    clock := 0 }

/-- One refresh_filtered_emails call with chunk size 1 (state part). -/
def c4Step (db : Db) : Db :=
  (refreshFilteredEmails noRegex db "a" 1 false).2

/-- Counterexample to claim C4 as stated: in the claimed situation
(FilteredMessage empty for the account while the cursor is nonzero, here
999), each call does reset the cursor and reprocess from the lowest id, but
with chunk size 1 repeated calls do NOT fully repopulate the matches: the
match (2, 1) exists (an unbounded call with chunk size 2 records it), yet
after any number of chunked calls the FilteredMessage set is still empty,
because each call only re-scans message 1 and then rewinds again. -/
theorem c4_counterexample :
    getFilterCursor c4Db "a" = 999 ∧ c4Db.filtered = [] ∧
    ((refreshFilteredEmails noRegex c4Db "a" 2 false).2).filtered = [(2, 1)] ∧
    (∀ n : Nat, (c4Step^[n] c4Db).filtered = []) := by
  have hfix : c4Step (c4Step c4Db) = c4Step c4Db := by decide
  have hiter : ∀ n : Nat, c4Step^[n + 1] c4Db = c4Step c4Db := by
    intro n
    induction n with
    | zero => rfl
    | succ k ih =>
      rw [Function.iterate_succ_apply', ih, hfix]
  refine ⟨by decide, by decide, by decide, ?_⟩
  intro n
  cases n with
  | zero => decide
  | succ k =>
    rw [hiter k]
    decide

/-- Claim C4 (amended): if the account's FilteredMessage set is empty while
its filter cursor is nonzero, the next refresh_filtered_emails call resets
the cursor to zero before selecting messages and reprocesses from the lowest
local id; when the chunk size is at least the account's message count this
single call already fully repopulates the matches: it processes every message
of the account, and afterwards the account's FilteredMessage rows are exactly
the (message, filter) pairs whose message matches the filter. (With a smaller
chunk size full repopulation can fail; see the counterexample.) -/
theorem c4_rewind_repopulates (cr : String → Option (String → Bool))
    (db : Db) (hwf : DbWf db) (a : String) (c : Nat)
    (hc : (db.emails.filter (fun r => r.account == a)).length ≤ c)
    (hcur : 0 < getFilterCursor db a)
    (hempty : filteredCountFor db a = 0) :
    (refreshFilteredEmails cr db a c false).1 =
      (db.emails.filter (fun r => r.account == a)).length ∧
    (∀ p : Nat × Int,
      (p ∈ ((refreshFilteredEmails cr db a c false).2).filtered ∧
        (∃ r ∈ db.emails, r.account = a ∧ r.id = p.1)) ↔
      (∃ r ∈ db.emails, r.account = a ∧ r.id = p.1 ∧
        p.2 ∈ matchFilters r.subject r.sender (compileFilters cr db.filters))) := by
  have h1 : (filteredCountFor db a == 0 &&
      decide (0 < getFilterCursor db a)) = true := by
    rw [hempty]
    simp [hcur]
  have hnof : ∀ p ∈ db.filtered,
      ¬ ∃ r ∈ db.emails, r.account = a ∧ r.id = p.1 := by
    intro p hp ⟨r, hr, hacct, hid⟩
    have hmem : p ∈ db.filtered.filter (fun p =>
        db.emails.any (fun r => r.id == p.1 && r.account == a)) := by
      rw [List.mem_filter]
      exact ⟨hp, List.any_eq_true.mpr ⟨r, hr, by simp [hid, hacct]⟩⟩
    rw [List.eq_nil_of_length_eq_zero hempty] at hmem
    exact absurd hmem (List.not_mem_nil p)
  have hbatch : selectBatch db.emails a 0 c =
      db.emails.filter (fun r => r.account == a) :=
    selectBatch_all db.emails hwf.idsSorted hwf.idsPos a c hc
  unfold refreshFilteredEmails
  simp only [Bool.false_eq_true, if_false, h1, if_true, setFilterCursor_emails,
    setFilterCursor_filters, setFilterCursor_filtered, hbatch]
  split
  next hgl =>
    have hnil : db.emails.filter (fun r => r.account == a) = [] :=
      List.getLast?_eq_none_iff.mp hgl
    constructor
    · simp [hnil]
    · intro p
      simp only [setFilterCursor_filtered]
      constructor
      · rintro ⟨hp, hex⟩
        exact absurd hex (hnof p hp)
      · rintro ⟨r, hr, hacct, _, _⟩
        exfalso
        have hrf : r ∈ db.emails.filter (fun r => r.account == a) :=
          List.mem_filter.mpr ⟨hr, by simp [hacct]⟩
        rw [hnil] at hrf
        exact absurd hrf (List.not_mem_nil r)
  next rl hgl =>
    constructor
    · rfl
    · intro p
      simp only [setFilterCursor_filtered]
      rw [mem_insertBatchMatches]
      constructor
      · rintro ⟨hp | ⟨r, hrb, hid, hm⟩, hex⟩
        · exact absurd hex (hnof p hp)
        · have hr := List.mem_filter.mp hrb
          refine ⟨r, hr.1, by simpa using hr.2, hid.symm, hm⟩
      · rintro ⟨r, hr, hacct, hid, hm⟩
        exact ⟨Or.inr ⟨r, List.mem_filter.mpr ⟨hr, by simp [hacct]⟩,
          hid.symm, hm⟩, ⟨r, hr, hacct, hid⟩⟩

/-- Witness for amended claim C4 at a concrete input: c4Db has an empty
FilteredMessage set, cursor 999, and two messages; one call with chunk size 2
reprocesses both and repopulates the match set. -/
theorem c4_rewind_repopulates_witness :
    (refreshFilteredEmails noRegex c4Db "a" 2 false).1 =
      (c4Db.emails.filter (fun r => r.account == "a")).length ∧
    (∀ p : Nat × Int,
      (p ∈ ((refreshFilteredEmails noRegex c4Db "a" 2 false).2).filtered ∧
        (∃ r ∈ c4Db.emails, r.account = "a" ∧ r.id = p.1)) ↔
      (∃ r ∈ c4Db.emails, r.account = "a" ∧ r.id = p.1 ∧
        p.2 ∈ matchFilters r.subject r.sender
          (compileFilters noRegex c4Db.filters))) :=
  c4_rewind_repopulates noRegex c4Db
    ⟨by decide, by decide, by decide, by decide, by decide, by decide,
     by decide, by decide⟩
    "a" 2 (by decide) (by decide) (by decide)

/-! ## Claim C6: list_emails ordering -/

/-- A message whose source date parsed to a pre-1970 instant: a known date
with a negative epoch. -/
def c6RowKnown : EmailRow :=
  { mkRow 1 10 "pre-epoch mail" "x@y.com" "a" (-1) with
    date := "Wed, 31 Dec 1969 23:59:59 +0000" }

/-- A message whose source date could not be parsed: epoch 0. -/
def c6RowUnknown : EmailRow :=
  { mkRow 2 11 "undated mail" "x@y.com" "a" 0 with date := "" }

def c6Db : Db :=
  { emails := [c6RowKnown, c6RowUnknown]
    nextId := 3
    filters := []
    nextFilterId := 1
    filtered := []
    filterCursor := []
    clock := 0 }

/-- Counterexample to claim C6 as stated: list_emails orders by the raw
date epoch descending, so a message with a known pre-1970 date (epoch -1)
appears AFTER the message with unknown/zero epoch, contradicting "every
message whose date epoch is zero or unknown appears after all messages with
a known date". -/
theorem c6_counterexample :
    c6RowKnown.date_epoch = -1 ∧ c6RowKnown.date ≠ "" ∧
    c6RowUnknown.date_epoch = 0 ∧
    listEmails c6Db "a" false 10 0 =
      [toStored c6RowUnknown, toStored c6RowKnown] := by
  refine ⟨by decide, by decide, by decide, by decide⟩

/-- Claim C6 (amended): list_emails returns the account's messages (only the
unread ones when unread_only) ordered by date epoch descending — for rows
with distinct epochs the order is strictly descending — and every message
whose date epoch is zero or unknown appears after all messages with a
positive (post-1970) epoch; a known date with a negative epoch sorts after
the zero-epoch messages. -/
theorem c6_list_ordering (db : Db) (a : String) (u : Bool)
    (limit offset : Nat) :
    (listEmails db a u limit offset).Pairwise
      (fun x y => y.date_epoch ≤ x.date_epoch) ∧
    (listEmails db a u limit offset).Pairwise
      (fun x y => x.date_epoch ≠ y.date_epoch → y.date_epoch < x.date_epoch) ∧
    (∀ s ∈ listEmails db a u limit offset, ∃ r ∈ db.emails,
      r.account = a ∧ (u = true → r.is_read = false) ∧ toStored r = s) := by
  have hsorted : ((db.emails.filter (listedB a u)).insertionSort
      EpochDesc).Pairwise EpochDesc :=
    List.sorted_insertionSort EpochDesc (db.emails.filter (listedB a u))
  have hsub : (((((db.emails.filter (listedB a u)).insertionSort
      EpochDesc).drop offset).take limit)).Sublist
      ((db.emails.filter (listedB a u)).insertionSort EpochDesc) :=
    (List.take_sublist _ _).trans (List.drop_sublist _ _)
  have hpw : (((((db.emails.filter (listedB a u)).insertionSort
      EpochDesc).drop offset).take limit)).Pairwise EpochDesc :=
    List.Pairwise.sublist hsub hsorted
  refine ⟨?_, ?_, ?_⟩
  · unfold listEmails
    rw [List.pairwise_map]
    exact hpw.imp (fun h => h)
  · unfold listEmails
    rw [List.pairwise_map]
    refine hpw.imp ?_
    intro x y h hne
    exact lt_of_le_of_ne h (fun hq => hne hq.symm)
  · intro s hs
    unfold listEmails at hs
    obtain ⟨r, hr, rfl⟩ := List.mem_map.mp hs
    have hrmem : r ∈ (db.emails.filter (listedB a u)).insertionSort
        EpochDesc := hsub.mem hr
    have hrf : r ∈ db.emails.filter (listedB a u) :=
      (List.perm_insertionSort EpochDesc _).mem_iff.mp hrmem
    have h2 := List.mem_filter.mp hrf
    have hb := h2.2
    unfold listedB at hb
    rw [Bool.and_eq_true] at hb
    refine ⟨r, h2.1, by simpa using hb.1, ?_, rfl⟩
    intro hu
    rcases Bool.or_eq_true _ _ |>.mp hb.2 with h | h
    · rw [hu] at h
      exact absurd h (by simp)
    · simpa using h

/-- Witness for amended claim C6 at a concrete input. -/
theorem c6_list_ordering_witness :
    (listEmails c6Db "a" false 10 0).Pairwise
      (fun x y => y.date_epoch ≤ x.date_epoch) ∧
    (listEmails c6Db "a" false 10 0).Pairwise
      (fun x y => x.date_epoch ≠ y.date_epoch → y.date_epoch < x.date_epoch) ∧
    (∀ s ∈ listEmails c6Db "a" false 10 0, ∃ r ∈ c6Db.emails,
      r.account = "a" ∧ (false = true → r.is_read = false) ∧ toStored r = s) :=
  c6_list_ordering c6Db "a" false 10 0

/-! ## Claim C7: mark_emails_read and the unread listing -/

theorem contains_append (l1 l2 : List Nat) (x : Nat) :
    (l1 ++ l2).contains x = (l1.contains x || l2.contains x) := by
  induction l1 with
  | nil => rfl
  | cons a t ih =>
    simp only [List.cons_append, List.contains_cons, ih, Bool.or_assoc]

theorem hitB_append (a : String) (b c : List Nat) (r : EmailRow) :
    hitB a (b ++ c) r = (hitB a b r || hitB a c r) := by
  unfold hitB
  rw [contains_append]
  cases r.account == a <;> simp

theorem hitB_nil (a : String) (r : EmailRow) :
    hitB a ([] : List Nat) r = false := by
  unfold hitB
  cases r.account == a <;> rfl

theorem chunksOf_flatten (n : Nat) (l : List Nat) (hn : 0 < n) :
    (chunksOf n l).flatten = l := by
  induction n, l using chunksOf.induct with
  | case1 m => simp [chunksOf]
  | case2 x t => omega
  | case3 m x t ih =>
    rw [chunksOf]
    simp only [List.flatten_cons]
    rw [ih (by omega), List.take_append_drop]

theorem length_filter_or_disjoint (E : List EmailRow) (p q : EmailRow → Bool)
    (h : ∀ r, ¬(p r = true ∧ q r = true)) :
    (E.filter (fun r => p r || q r)).length =
      (E.filter p).length + (E.filter q).length := by
  induction E with
  | nil => rfl
  | cons r t ih =>
    simp only [List.filter_cons]
    cases hp : p r with
    | true =>
      have hq : q r = false := by
        cases hq : q r with
        | true => exact absurd ⟨hp, hq⟩ (h r)
        | false => rfl
      simp only [hp, hq, Bool.true_or, if_true]
      simp [ih]
      omega
    | false =>
      cases hq : q r with
      | true =>
        simp [hp, hq, ih]
        omega
      | false => simp [hp, hq, ih]

theorem length_filter_split (E : List EmailRow) (p q : EmailRow → Bool) :
    (E.filter p).length =
      (E.filter (fun r => p r && q r)).length +
        (E.filter (fun r => p r && !q r)).length := by
  induction E with
  | nil => rfl
  | cons r t ih =>
    simp only [List.filter_cons]
    cases hp : p r <;> cases hq : q r <;> simp [hp, hq, ih] <;> omega

theorem sum_counts_chunksOf (a : String) (E : List EmailRow) :
    ∀ (n : Nat) (uids : List Nat), 0 < n → uids.Nodup →
      ((chunksOf n uids).map
        (fun ch => (E.filter (hitB a ch)).length)).sum =
        (E.filter (hitB a uids)).length := by
  intro n uids
  induction n, uids using chunksOf.induct with
  | case1 m =>
    intro _ _
    have hmt : E.filter (hitB a ([] : List Nat)) = [] := by
      rw [List.filter_eq_nil_iff]
      intro r _
      simp [hitB_nil]
    simp [chunksOf, hmt]
  | case2 x t =>
    intro h
    omega
  | case3 m x t ih =>
    intro _ hnd
    rw [chunksOf]
    simp only [List.map_cons, List.sum_cons]
    have hndd : (List.drop (m + 1) (x :: t)).Nodup :=
      List.Nodup.sublist (List.drop_sublist _ _) hnd
    rw [ih (by omega) hndd]
    have hsplit : x :: t =
        List.take (m + 1) (x :: t) ++ List.drop (m + 1) (x :: t) :=
      (List.take_append_drop _ _).symm
    have hdisj : ∀ r : EmailRow,
        ¬(hitB a (List.take (m + 1) (x :: t)) r = true ∧
          hitB a (List.drop (m + 1) (x :: t)) r = true) := by
      rintro r ⟨h1, h2⟩
      unfold hitB at h1 h2
      rw [Bool.and_eq_true] at h1 h2
      have hm1 : r.uid ∈ List.take (m + 1) (x :: t) :=
        List.elem_iff.mp h1.2
      have hm2 : r.uid ∈ List.drop (m + 1) (x :: t) :=
        List.elem_iff.mp h2.2
      have hnd2 : (List.take (m + 1) (x :: t) ++
          List.drop (m + 1) (x :: t)).Nodup := by
        rw [← hsplit]
        exact hnd
      exact (List.nodup_append.mp hnd2).2.2 hm1 hm2
    conv_rhs => rw [hsplit]
    have hcongr : E.filter (hitB a (List.take (m + 1) (x :: t) ++
        List.drop (m + 1) (x :: t))) =
        E.filter (fun r => hitB a (List.take (m + 1) (x :: t)) r ||
          hitB a (List.drop (m + 1) (x :: t)) r) := by
      apply List.filter_congr
      intro r _
      exact hitB_append a _ _ r
    rw [hcongr, length_filter_or_disjoint E _ _ hdisj]

theorem length_filter_map_eq (g : EmailRow → EmailRow) (p : EmailRow → Bool)
    (hp : ∀ r, p (g r) = p r) (l : List EmailRow) :
    ((l.map g).filter p).length = (l.filter p).length := by
  rw [List.filter_map, List.length_map]
  congr 1
  apply List.filter_congr
  intro x _
  exact hp x

/-- Any element of a list_emails result comes from a stored row of the
account satisfying the WHERE clause. -/
theorem mem_listEmails (db : Db) (a : String) (u : Bool) (limit offset : Nat)
    (s : StoredEmail) (hs : s ∈ listEmails db a u limit offset) :
    ∃ r ∈ db.emails, listedB a u r = true ∧ toStored r = s := by
  unfold listEmails at hs
  obtain ⟨r, hr, rfl⟩ := List.mem_map.mp hs
  have hsub : ((((db.emails.filter (listedB a u)).insertionSort
      EpochDesc).drop offset).take limit).Sublist
      ((db.emails.filter (listedB a u)).insertionSort EpochDesc) :=
    (List.take_sublist _ _).trans (List.drop_sublist _ _)
  have hrf : r ∈ db.emails.filter (listedB a u) :=
    (List.perm_insertionSort EpochDesc _).mem_iff.mp (hsub.mem hr)
  have h2 := List.mem_filter.mp hrf
  exact ⟨r, h2.1, h2.2, rfl⟩

/-- The state and count of the chunk loop of mark_emails_read: the final
emails list is a pointwise update of the original one that preserves account
and uid, sets is_read on exactly the rows hit by some chunk, and the summed
count is the sum over chunks of the matched row counts against the original
table. -/
theorem markFold_spec (a : String) (cs : List (List Nat)) :
    ∀ (db : Db) (k : Nat),
      ∃ f : EmailRow → EmailRow,
        ((cs.foldl (fun acc chunk =>
            let r := markChunk a chunk acc.1
            (r.1, acc.2 + r.2)) (db, k)).1).emails = db.emails.map f ∧
        (∀ r : EmailRow, (f r).account = r.account ∧ (f r).uid = r.uid ∧
          (f r).is_read = (r.is_read || hitB a cs.flatten r)) ∧
        (cs.foldl (fun acc chunk =>
            let r := markChunk a chunk acc.1
            (r.1, acc.2 + r.2)) (db, k)).2 =
          k + (cs.map (fun ch => (db.emails.filter (hitB a ch)).length)).sum := by
  induction cs with
  | nil =>
    intro db k
    refine ⟨id, by simp, ?_, by simp⟩
    intro r
    simp [hitB_nil]
  | cons c cs ih =>
    intro db k
    set g : EmailRow → EmailRow := fun r =>
      if hitB a c r then { r with is_read := true, updated_at := db.clock }
      else r with hg
    have hgacct : ∀ r, (g r).account = r.account := by
      intro r
      rw [hg]
      by_cases h : hitB a c r = true
      · simp [h]
      · simp only [Bool.not_eq_true] at h
        simp [h]
    have hguid : ∀ r, (g r).uid = r.uid := by
      intro r
      rw [hg]
      by_cases h : hitB a c r = true
      · simp [h]
      · simp only [Bool.not_eq_true] at h
        simp [h]
    have hghit : ∀ (L : List Nat) (r : EmailRow), hitB a L (g r) = hitB a L r := by
      intro L r
      unfold hitB
      rw [hgacct, hguid]
    have hgread : ∀ r, (g r).is_read = (r.is_read || hitB a c r) := by
      intro r
      rw [hg]
      by_cases h : hitB a c r = true
      · simp [h]
      · simp only [Bool.not_eq_true] at h
        simp [h]
    have hstep : (List.foldl (fun acc chunk =>
        let r := markChunk a chunk acc.1
        (r.1, acc.2 + r.2)) (db, k) (c :: cs)) =
        (List.foldl (fun acc chunk =>
          let r := markChunk a chunk acc.1
          (r.1, acc.2 + r.2))
          ({ db with emails := db.emails.map g, clock := db.clock + 1 },
           k + (db.emails.filter (hitB a c)).length) cs) := by
      rw [List.foldl_cons]
      rfl
    obtain ⟨f1, hf1e, hf1p, hf1n⟩ :=
      ih { db with emails := db.emails.map g, clock := db.clock + 1 }
        (k + (db.emails.filter (hitB a c)).length)
    refine ⟨f1 ∘ g, ?_, ?_, ?_⟩
    · rw [hstep, hf1e]
      simp [List.map_map]
    · intro r
      refine ⟨((hf1p (g r)).1).trans (hgacct r),
        ((hf1p (g r)).2.1).trans (hguid r), ?_⟩
      have h1 := (hf1p (g r)).2.2
      rw [hghit, hgread] at h1
      rw [Function.comp_apply, h1, List.flatten_cons, hitB_append,
        Bool.or_assoc]
    · rw [hstep, hf1n]
      have hsame : ∀ ch : List Nat,
          (((db.emails.map g).filter (hitB a ch)).length) =
            ((db.emails.filter (hitB a ch)).length) := by
        intro ch
        exact length_filter_map_eq g (hitB a ch) (hghit ch) db.emails
      simp only [List.map_cons, List.sum_cons]
      have : (cs.map (fun ch => ((db.emails.map g).filter
          (hitB a ch)).length)) =
          (cs.map (fun ch => (db.emails.filter (hitB a ch)).length)) := by
        apply List.map_congr_left
        intro ch _
        exact hsame ch
      rw [this]
      omega

/-- Claim C7: mark_emails_read chunks the uid list at 200 per statement
inside one transaction and returns the number of rows the UPDATE statements
touched — the stored rows of the account whose uid is in the (duplicate-free)
list, each of which is rewritten (read flag and updated_at). Afterwards none
of the given uids appears in the unread-only listing, and the unread count
has decreased by exactly the number of those uids that were previously
unread. -/
theorem c7_mark_read_roundtrip (db : Db) (a : String) (uids : List Nat)
    (hnd : uids.Nodup) :
    (markEmailsRead db a uids).2 =
      (db.emails.filter (hitB a uids)).length ∧
    (∀ limit offset : Nat,
      ∀ s ∈ listEmails (markEmailsRead db a uids).1 a true limit offset,
        s.uid ∉ uids) ∧
    countEmails db a true =
      countEmails (markEmailsRead db a uids).1 a true +
        (db.emails.filter (fun r => hitB a uids r && !r.is_read)).length := by
  by_cases hE : uids.isEmpty = true
  · have huids : uids = [] := List.isEmpty_iff.mp hE
    subst huids
    have hmt : db.emails.filter (hitB a ([] : List Nat)) = [] := by
      rw [List.filter_eq_nil_iff]
      intro r _
      simp [hitB_nil]
    have hmt2 : db.emails.filter
        (fun r => hitB a ([] : List Nat) r && !r.is_read) = [] := by
      rw [List.filter_eq_nil_iff]
      intro r _
      simp [hitB_nil]
    refine ⟨?_, ?_, ?_⟩
    · simp [markEmailsRead, hmt]
    · intro limit offset s _
      simp
    · simp [markEmailsRead, hmt2]
  · unfold markEmailsRead
    simp only [hE, Bool.false_eq_true, if_false]
    obtain ⟨f, hfe, hfp, hfn⟩ := markFold_spec a (chunksOf 200 uids) db 0
    have hflat : (chunksOf 200 uids).flatten = uids :=
      chunksOf_flatten 200 uids (by omega)
    refine ⟨?_, ?_, ?_⟩
    · rw [hfn, sum_counts_chunksOf a db.emails 200 uids (by omega) hnd]
      omega
    · intro limit offset s hs
      obtain ⟨r, hr, hlst, hts⟩ := mem_listEmails _ a true limit offset s hs
      rw [hfe] at hr
      obtain ⟨r0, hr0, rfl⟩ := List.mem_map.mp hr
      intro hmem
      have huid : r0.uid ∈ uids := by
        have : s.uid = (f r0).uid := by rw [← hts]; rfl
        rw [(hfp r0).2.1] at this
        rw [← this]
        exact hmem
      unfold listedB at hlst
      rw [Bool.and_eq_true] at hlst
      have hacct : (f r0).account == a := hlst.1
      rw [(hfp r0).1] at hacct
      have hhit : hitB a uids r0 = true := by
        have hc : uids.contains r0.uid = true := List.elem_iff.mpr huid
        unfold hitB
        rw [hacct, hc]
        rfl
      have hread : (f r0).is_read = true := by
        rw [(hfp r0).2.2, hflat, hhit]
        simp
      rw [hread] at hlst
      simp at hlst
    · unfold countEmails
      rw [hfe]
      have hpw : ∀ r, listedB a true (f r) =
          (listedB a true r && !(hitB a uids r)) := by
        intro r
        unfold listedB
        rw [(hfp r).1, (hfp r).2.2, hflat]
        cases r.account == a <;> cases r.is_read <;>
          cases hitB a uids r <;> rfl
      have h1 : ((db.emails.map f).filter (listedB a true)).length =
          (db.emails.filter
            (fun r => listedB a true r && !(hitB a uids r))).length := by
        rw [List.filter_map, List.length_map]
        congr 1
        apply List.filter_congr
        intro r _
        exact hpw r
      rw [h1]
      have h2 := length_filter_split db.emails (listedB a true)
        (hitB a uids)
      have h3 : db.emails.filter
          (fun r => listedB a true r && hitB a uids r) =
          db.emails.filter (fun r => hitB a uids r && !r.is_read) := by
        apply List.filter_congr
        intro r _
        unfold listedB hitB
        cases r.account == a <;> cases r.is_read <;>
          cases uids.contains r.uid <;> rfl
      rw [h3] at h2
      omega

/-- Two messages, one unread (uid 10) and one already read (uid 11). -/
def c7Db : Db :=
  { emails := [mkRow 1 10 "s1" "x@y.com" "a" 1,
               { mkRow 2 11 "s2" "x@y.com" "a" 2 with is_read := true }]
    nextId := 3
    filters := []
    nextFilterId := 1
    filtered := []
    filterCursor := []
    clock := 0 }

/-- Witness for claim C7 at a concrete input (uids 10 and 11 stored, 99
absent). -/
theorem c7_mark_read_roundtrip_witness :
    (markEmailsRead c7Db "a" [10, 11, 99]).2 =
      (c7Db.emails.filter (hitB "a" [10, 11, 99])).length ∧
    (∀ limit offset : Nat,
      ∀ s ∈ listEmails (markEmailsRead c7Db "a" [10, 11, 99]).1 "a" true
          limit offset,
        s.uid ∉ [10, 11, 99]) ∧
    countEmails c7Db "a" true =
      countEmails (markEmailsRead c7Db "a" [10, 11, 99]).1 "a" true +
        (c7Db.emails.filter
          (fun r => hitB "a" [10, 11, 99] r && !r.is_read)).length :=
  c7_mark_read_roundtrip c7Db "a" [10, 11, 99] (by decide)

/-! ## Claim C10: a regex filter whose pattern fails to compile -/

/-- Claim C10: a filter stored with regex mode set whose pattern does not
compile (the engine returns none, as RegexBuilder::build().ok() does on a
malformed pattern) matches no message: match_filters never returns its id,
and refresh_filtered_emails over a database whose only filter it is records
no FilteredMessage row and completes without error (the embedded function is
total exactly like the source's Ok path; compile errors are swallowed by
.ok()). -/
theorem c10_invalid_regex_silent (cr : String → Option (String → Bool))
    (f : FilterPattern) (hre : f.is_regex = true) (hcp : cr f.pattern = none) :
    (∀ subject sender : String,
      matchFilters subject sender (compileFilters cr [f]) = []) ∧
    (∀ (db : Db) (a : String) (c : Nat) (force : Bool), db.filters = [f] →
      ∀ p ∈ ((refreshFilteredEmails cr db a c force).2).filtered,
        p ∈ db.filtered) := by
  have hmz : ∀ subject sender : String,
      matchFilters subject sender (compileFilters cr [f]) = [] := by
    intro subject sender
    unfold matchFilters compileFilters compiledMatches
    simp [hre, hcp]
  refine ⟨hmz, ?_⟩
  intro db a c force hdf p hp
  cases db with
  | mk E nI F nF FL FC CL =>
    simp only at hdf
    subst hdf
    unfold refreshFilteredEmails at hp
    simp only [apply_ite Db.emails, apply_ite Db.filters, apply_ite Db.filtered,
      apply_ite Db.filterCursor, setFilterCursor_emails, setFilterCursor_filters,
      setFilterCursor_filtered, getFilterCursor, filteredCountFor,
      ite_self] at hp
    split at hp
    next hgl =>
      simp only [apply_ite Db.filtered, setFilterCursor_filtered,
        ite_self] at hp
      split at hp
      · exact List.mem_of_mem_filter hp
      · exact hp
    next rl hgl =>
      simp only [apply_ite Db.filtered, setFilterCursor_filtered,
        ite_self] at hp
      rw [mem_insertBatchMatches] at hp
      rcases hp with hp | ⟨r, hr, hid, hm⟩
      · split at hp
        · exact List.mem_of_mem_filter hp
        · exact hp
      · rw [hmz] at hm
        exact absurd hm (List.not_mem_nil p.2)

/-- One message and one regex filter with the malformed pattern "(". -/
def c10Db : Db :=
  { emails := [mkRow 1 10 "Invoice" "a@b.com" "a" 1]
    nextId := 2
    filters := [mkFilter 1 "(" .subject true true]
    nextFilterId := 2
    filtered := []
    filterCursor := []
    clock := 0 }

/-- Witness for claim C10 at a concrete input. -/
theorem c10_invalid_regex_silent_witness :
    matchFilters "Invoice" "a@b.com"
      (compileFilters noRegex [mkFilter 1 "(" .subject true true]) = [] ∧
    (∀ p ∈ ((refreshFilteredEmails noRegex c10Db "a" 10 false).2).filtered,
      p ∈ c10Db.filtered) :=
  ⟨(c10_invalid_regex_silent noRegex (mkFilter 1 "(" .subject true true)
      rfl rfl).1 "Invoice" "a@b.com",
   (c10_invalid_regex_silent noRegex (mkFilter 1 "(" .subject true true)
      rfl rfl).2 c10Db "a" 10 false rfl⟩

/-! ## Claim C8: the sync orchestrator's search range and chunking -/

theorem chunksOf_sizes (n : Nat) (l : List Nat) :
    ∀ ch ∈ chunksOf n l, ch.length ≤ n ∧ ch ≠ [] := by
  induction n, l using chunksOf.induct with
  | case1 m => simp [chunksOf]
  | case2 x t => simp [chunksOf]
  | case3 m x t ih =>
    rw [chunksOf]
    intro ch hch
    rcases List.mem_cons.mp hch with rfl | hch
    · constructor
      · rw [List.length_take]
        omega
      · simp
    · exact ih ch hch

/-- Claim C8: in fetch_emails_since, since_uid = 0 fetches the entire
mailbox and since_uid > 0 delivers only uids strictly greater than since_uid;
the resulting uid set is sorted ascending and partitioned into nonempty
chunks of at most batch_size, delivered in ascending uid order (the
concatenation of the chunks in delivery order is sorted). The IMAP server is
the external remote-mailbox collaborator; its search is modelled from the
specification's contract ("since_uid = 0 means fetch everything; otherwise
fetch strictly greater"), matching the query strings ALL and
UID since_uid+1:* that the source builds. -/
theorem c8_fetch_since_chunks (mailbox : List Nat)
    (sinceUid batchSize : Nat) (hb : 0 < batchSize) :
    ((fetchEmailsSince mailbox sinceUid batchSize).chunks.flatten).Pairwise
      (· ≤ ·) ∧
    (∀ ch ∈ (fetchEmailsSince mailbox sinceUid batchSize).chunks,
      ch.length ≤ batchSize ∧ ch ≠ []) ∧
    (∀ u : Nat,
      u ∈ (fetchEmailsSince mailbox sinceUid batchSize).chunks.flatten ↔
        u ∈ searchUids mailbox sinceUid) ∧
    (sinceUid = 0 → ∀ u ∈ mailbox,
      u ∈ (fetchEmailsSince mailbox sinceUid batchSize).chunks.flatten) ∧
    (0 < sinceUid →
      ∀ ch ∈ (fetchEmailsSince mailbox sinceUid batchSize).chunks,
        ∀ u ∈ ch, sinceUid < u) := by
  unfold fetchEmailsSince
  by_cases hE : ((searchUids mailbox sinceUid).insertionSort
      (· ≤ ·)).isEmpty = true
  · have hnil : (searchUids mailbox sinceUid).insertionSort (· ≤ ·) = [] :=
      List.isEmpty_iff.mp hE
    have hsnil : searchUids mailbox sinceUid = [] := by
      have := List.perm_insertionSort (fun a b : Nat => a ≤ b)
        (searchUids mailbox sinceUid)
      rw [hnil] at this
      exact (List.Perm.nil_eq this).symm
    simp only [hE, if_true]
    refine ⟨by simp, by simp, ?_, ?_, by simp⟩
    · intro u
      simp [hsnil]
    · intro h0 u hu
      exfalso
      unfold searchUids at hsnil
      rw [if_neg (by omega)] at hsnil
      rw [hsnil] at hu
      exact absurd hu (List.not_mem_nil u)
  · simp only [hE, Bool.false_eq_true, if_false]
    have hflat : (chunksOf batchSize ((searchUids mailbox
        sinceUid).insertionSort (· ≤ ·))).flatten =
        (searchUids mailbox sinceUid).insertionSort (· ≤ ·) :=
      chunksOf_flatten batchSize _ hb
    have hmemiff : ∀ u : Nat,
        u ∈ (searchUids mailbox sinceUid).insertionSort (· ≤ ·) ↔
          u ∈ searchUids mailbox sinceUid := fun u =>
      (List.perm_insertionSort (fun a b : Nat => a ≤ b) _).mem_iff
    refine ⟨?_, ?_, ?_, ?_, ?_⟩
    · simp only [hflat]
      exact List.sorted_insertionSort (fun a b : Nat => a ≤ b) _
    · exact chunksOf_sizes batchSize _
    · intro u
      rw [hflat]
      exact hmemiff u
    · intro h0 u hu
      rw [hflat, hmemiff u]
      unfold searchUids
      rw [if_neg (by omega)]
      exact hu
    · intro h0 ch hch u hu
      have hu2 : u ∈ (chunksOf batchSize ((searchUids mailbox
          sinceUid).insertionSort (· ≤ ·))).flatten := by
        rw [List.mem_flatten]
        exact ⟨ch, hch, hu⟩
      rw [hflat, hmemiff u] at hu2
      unfold searchUids at hu2
      rw [if_pos h0] at hu2
      have := List.mem_filter.mp hu2
      have h3 := this.2
      simp at h3
      omega

/-- Witness for claim C8 at a concrete input: mailbox uids [5, 3, 9, 7],
cursor 4, batch size 2 (chunks [[5, 7], [9]]). -/
theorem c8_fetch_since_chunks_witness :
    ((fetchEmailsSince [5, 3, 9, 7] 4 2).chunks.flatten).Pairwise (· ≤ ·) ∧
    (∀ ch ∈ (fetchEmailsSince [5, 3, 9, 7] 4 2).chunks,
      ch.length ≤ 2 ∧ ch ≠ []) ∧
    (∀ u : Nat, u ∈ (fetchEmailsSince [5, 3, 9, 7] 4 2).chunks.flatten ↔
      u ∈ searchUids [5, 3, 9, 7] 4) ∧
    ((4 : Nat) = 0 → ∀ u ∈ [5, 3, 9, 7],
      u ∈ (fetchEmailsSince [5, 3, 9, 7] 4 2).chunks.flatten) ∧
    ((0 : Nat) < 4 → ∀ ch ∈ (fetchEmailsSince [5, 3, 9, 7] 4 2).chunks,
      ∀ u ∈ ch, 4 < u) :=
  c8_fetch_since_chunks [5, 3, 9, 7] 4 2 (by decide)

/-! ## Claim C9: concurrent sync dedup -/

/-- Claim C9: the contains/insert pair of gmail_sync_all_background runs
with the syncing-set mutex held, so any two concurrent start calls for the
same account serialize into two successive startSync steps (the calls are
symmetric, so one order covers both interleavings). From any state in which
the account is not yet marked: the first call marks the account and spawns
one sync execution; the second observes the marker and returns silently,
spawning nothing and leaving the state unchanged; exactly one execution is
added; and completion clears the marker unconditionally — on the success and
on the failure path alike — restoring the original syncing set. -/
theorem c9_sync_dedup (s : SyncState) (a : String) (h : a ∉ s.syncing) :
    (startSync a s).2 = true ∧
    (startSync a (startSync a s).1).2 = false ∧
    (startSync a (startSync a s).1).1 = (startSync a s).1 ∧
    (startSync a s).1.executions = s.executions + 1 ∧
    (∀ ok : Bool,
      (completeSync a ok (startSync a (startSync a s).1).1).syncing =
        s.syncing ∧
      a ∉ (completeSync a ok (startSync a (startSync a s).1).1).syncing) := by
  have hc : s.syncing.contains a = false := by
    cases hc : s.syncing.contains a with
    | false => rfl
    | true => exact absurd (List.elem_iff.mp hc) h
  have h1 : startSync a s =
      (SyncState.mk (a :: s.syncing) (s.executions + 1), true) := by
    unfold startSync
    rw [hc]
    simp
  have hc2 : (a :: s.syncing).contains a = true := by
    rw [List.contains_cons]
    simp
  have h2 : startSync a (SyncState.mk (a :: s.syncing) (s.executions + 1)) =
      (SyncState.mk (a :: s.syncing) (s.executions + 1), false) := by
    unfold startSync
    simp only [hc2, if_true]
  rw [h1]
  simp only [h2]
  refine ⟨trivial, trivial, trivial, trivial, ?_⟩
  intro ok
  unfold completeSync
  simp only [List.erase_cons_head]
  exact ⟨trivial, h⟩

/-- Witness for claim C9 at a concrete input: empty syncing set, account
"user@x.com". -/
theorem c9_sync_dedup_witness :
    (startSync "user@x.com" (SyncState.mk [] 0)).2 = true ∧
    (startSync "user@x.com"
      (startSync "user@x.com" (SyncState.mk [] 0)).1).2 = false ∧
    (startSync "user@x.com"
      (startSync "user@x.com" (SyncState.mk [] 0)).1).1 =
      (startSync "user@x.com" (SyncState.mk [] 0)).1 ∧
    (startSync "user@x.com" (SyncState.mk [] 0)).1.executions = 0 + 1 ∧
    (∀ ok : Bool,
      (completeSync "user@x.com" ok (startSync "user@x.com"
        (startSync "user@x.com" (SyncState.mk [] 0)).1).1).syncing = [] ∧
      "user@x.com" ∉ (completeSync "user@x.com" ok (startSync "user@x.com"
        (startSync "user@x.com" (SyncState.mk [] 0)).1).1).syncing) :=
  c9_sync_dedup (SyncState.mk [] 0) "user@x.com" (by decide)

/-! ## Claim C5: save_filters reconciliation — supporting lemmas -/

theorem le_getLast_of_sorted (L : List EmailRow)
    (hs : L.Pairwise (fun r s => r.id < s.id)) (rl : EmailRow)
    (h : L.getLast? = some rl) : ∀ x ∈ L, x.id ≤ rl.id := by
  induction L with
  | nil => simp at h
  | cons a t ih =>
    intro x hx
    cases t with
    | nil =>
      rw [List.getLast?_singleton] at h
      cases h
      rcases List.mem_cons.mp hx with rfl | hx
      · exact le_refl _
      · exact absurd hx (List.not_mem_nil x)
    | cons b t2 =>
      rw [List.getLast?_cons_cons] at h
      have hrl : rl ∈ b :: t2 := List.mem_of_mem_getLast? h
      rcases List.mem_cons.mp hx with rfl | hx
      · have := (List.pairwise_cons.mp hs).1 rl hrl
        omega
      · exact ih (List.pairwise_cons.mp hs).2 h x hx

theorem filter_gt_getLast_take (L : List EmailRow)
    (hs : L.Pairwise (fun r s => r.id < s.id)) (n : Nat) (rl : EmailRow)
    (h : (L.take n).getLast? = some rl) :
    L.filter (fun r => decide ((rl.id : Int) < (r.id : Int))) = L.drop n := by
  have hsplit := (List.take_append_drop n L).symm
  have hs2 : (L.take n ++ L.drop n).Pairwise (fun r s => r.id < s.id) := by
    rw [← hsplit]
    exact hs
  rw [List.pairwise_append] at hs2
  have hrl : rl ∈ L.take n := List.mem_of_mem_getLast? h
  have htake : (L.take n).filter
      (fun r => decide ((rl.id : Int) < (r.id : Int))) = [] := by
    rw [List.filter_eq_nil_iff]
    intro x hx
    have hle : x.id ≤ rl.id := le_getLast_of_sorted (L.take n)
      (List.Pairwise.sublist (List.take_sublist n L) hs) rl h x hx
    simp only [decide_eq_true_eq]
    omega
  have hdrop : (L.drop n).filter
      (fun r => decide ((rl.id : Int) < (r.id : Int))) = L.drop n := by
    rw [List.filter_eq_self]
    intro y hy
    have := hs2.2.2 rl hrl y hy
    simp only [decide_eq_true_eq]
    omega
  conv_lhs => rw [hsplit]
  rw [List.filter_append, htake, hdrop, List.nil_append]

/-- Full specification of the chunked scan loop of
refresh_filter_matches_for_account: with sufficient fuel it produces exactly
the associations of the messages past the cursor. -/
theorem refreshLoop_spec (compiled : List CompiledFilter)
    (emails : List EmailRow)
    (hs : emails.Pairwise (fun r s => r.id < s.id)) (account : String)
    (chunkSize : Nat) (hcs : 0 < chunkSize) :
    ∀ (fuel : Nat) (lastId : Int) (fl : List (Nat × Int)),
      (emails.filter (fun r => r.account == account &&
        decide (lastId < (r.id : Int)))).length < fuel →
      ∀ p : Nat × Int,
        (p ∈ refreshLoop compiled emails account chunkSize fuel lastId fl ↔
          p ∈ fl ∨ ∃ r ∈ emails, r.account = account ∧
            lastId < (r.id : Int) ∧ p.1 = r.id ∧
            p.2 ∈ matchFilters r.subject r.sender compiled) := by
  intro fuel
  induction fuel with
  | zero =>
    intro lastId fl hlen
    omega
  | succ fuel ih =>
    intro lastId fl hlen p
    set L := emails.filter (fun r => r.account == account &&
      decide (lastId < (r.id : Int))) with hL
    have hLs : L.Pairwise (fun r s => r.id < s.id) := hs.filter _
    have hmemL : ∀ r : EmailRow, r ∈ L ↔ r ∈ emails ∧ r.account = account ∧
        lastId < (r.id : Int) := by
      intro r
      rw [hL, List.mem_filter]
      constructor
      · rintro ⟨h1, h2⟩
        rw [Bool.and_eq_true] at h2
        exact ⟨h1, by simpa using h2.1, by simpa using h2.2⟩
      · rintro ⟨h1, h2, h3⟩
        refine ⟨h1, ?_⟩
        rw [Bool.and_eq_true]
        exact ⟨by simpa using h2, by simpa using h3⟩
    have hsel : selectBatch emails account lastId chunkSize =
        L.take chunkSize := by
      rw [selectBatch_of_sorted emails hs, hL]
    rw [refreshLoop]
    rw [hsel]
    cases hgl : (L.take chunkSize).getLast? with
    | none =>
      have hnil : L.take chunkSize = [] := List.getLast?_eq_none_iff.mp hgl
      have hLnil : L = [] := by
        cases hLc : L with
        | nil => rfl
        | cons x t =>
          rw [hLc] at hnil
          cases chunkSize with
          | zero => omega
          | succ m => simp [List.take_succ_cons] at hnil
      simp only []
      constructor
      · exact Or.inl
      · rintro (hp | ⟨r, hr, hacct, hlt, _, _⟩)
        · exact hp
        · exfalso
          have : r ∈ L := (hmemL r).mpr ⟨hr, hacct, hlt⟩
          rw [hLnil] at this
          exact absurd this (List.not_mem_nil r)
    | some rl =>
      simp only []
      have hrlL : rl ∈ L := (List.take_sublist _ _).mem
        (List.mem_of_mem_getLast? hgl)
      have hrlLast : lastId < (rl.id : Int) := ((hmemL rl).mp hrlL).2.2
      have hnext : emails.filter (fun r => r.account == account &&
          decide ((rl.id : Int) < (r.id : Int))) = L.drop chunkSize := by
        have h1 : emails.filter (fun r => r.account == account &&
            decide ((rl.id : Int) < (r.id : Int))) =
            L.filter (fun r => decide ((rl.id : Int) < (r.id : Int))) := by
          rw [hL, List.filter_filter]
          apply List.filter_congr
          intro r _
          cases hacct : r.account == account with
          | false => simp [hacct]
          | true =>
            cases hgt : decide ((rl.id : Int) < (r.id : Int)) with
            | false => simp [hacct, hgt]
            | true =>
              have hlt2 : lastId < (r.id : Int) :=
                lt_trans hrlLast (of_decide_eq_true hgt)
              simp [hacct, hgt, hlt2]
        rw [h1]
        exact filter_gt_getLast_take L hLs chunkSize rl hgl
      have hLne : L ≠ [] := by
        intro hc
        rw [hc] at hrlL
        exact absurd hrlL (List.not_mem_nil rl)
      have hfuel2 : (emails.filter (fun r => r.account == account &&
          decide ((rl.id : Int) < (r.id : Int)))).length < fuel := by
        rw [hnext, List.length_drop]
        have hl1 : 1 ≤ L.length := by
          cases hLc : L with
          | nil => exact absurd hLc hLne
          | cons x t => simp [hLc]
        omega
      rw [ih (rl.id : Int) (insertBatchMatches compiled (L.take chunkSize) fl)
        hfuel2 p]
      rw [mem_insertBatchMatches]
      constructor
      · rintro ((hp | ⟨r, hrb, hid, hm⟩) | ⟨r, hr, hacct, hlt, hid, hm⟩)
        · exact Or.inl hp
        · have hrL : r ∈ L := (List.take_sublist _ _).mem hrb
          have := (hmemL r).mp hrL
          exact Or.inr ⟨r, this.1, this.2.1, this.2.2, hid, hm⟩
        · exact Or.inr ⟨r, hr, hacct, lt_trans hrlLast hlt, hid, hm⟩
      · rintro (hp | ⟨r, hr, hacct, hlt, hid, hm⟩)
        · exact Or.inl (Or.inl hp)
        · have hrL : r ∈ L := (hmemL r).mpr ⟨hr, hacct, hlt⟩
          have hsplit2 := (List.take_append_drop chunkSize L).symm
          have hrtd : r ∈ L.take chunkSize ++ L.drop chunkSize := by
            rw [← hsplit2]
            exact hrL
          rcases List.mem_append.mp hrtd with hrt | hrd
          · exact Or.inl (Or.inr ⟨r, hrt, hid, hm⟩)
          · have hgt : (rl.id : Int) < (r.id : Int) := by
              have hs2 : (L.take chunkSize ++
                  L.drop chunkSize).Pairwise (fun r s => r.id < s.id) := by
                rw [← hsplit2]
                exact hLs
              rw [List.pairwise_append] at hs2
              have := hs2.2.2 rl (List.mem_of_mem_getLast? hgl) r hrd
              omega
            exact Or.inr ⟨r, hr, hacct, hgt, hid, hm⟩

theorem refreshMatchesForAccount_fields (cr : String → Option (String → Bool))
    (db : Db) (account : String) (filters : List FilterPattern) (c : Nat) :
    (refreshMatchesForAccount cr db account filters c).emails = db.emails ∧
    (refreshMatchesForAccount cr db account filters c).filters = db.filters ∧
    (refreshMatchesForAccount cr db account filters c).filterCursor =
      db.filterCursor := by
  unfold refreshMatchesForAccount
  split
  · exact ⟨rfl, rfl, rfl⟩
  · exact ⟨rfl, rfl, rfl⟩

theorem refreshMatchesForAccount_spec (cr : String → Option (String → Bool))
    (db : Db) (hs : db.emails.Pairwise (fun r s => r.id < s.id))
    (hpos : ∀ r ∈ db.emails, 1 ≤ r.id) (account : String)
    (filters : List FilterPattern) (hf : ¬filters.isEmpty = true)
    (cs : Nat) (hcs : 0 < cs) :
    ∀ p : Nat × Int,
      p ∈ (refreshMatchesForAccount cr db account filters cs).filtered ↔
        p ∈ db.filtered ∨ ∃ r ∈ db.emails, r.account = account ∧
          p.1 = r.id ∧
          p.2 ∈ matchFilters r.subject r.sender (compileFilters cr filters) := by
  intro p
  unfold refreshMatchesForAccount
  rw [if_neg hf]
  have hfuel : (db.emails.filter (fun r => r.account == account &&
      decide ((0 : Int) < (r.id : Int)))).length < db.emails.length + 1 := by
    have := List.length_filter_le (fun r => r.account == account &&
      decide ((0 : Int) < (r.id : Int))) db.emails
    omega
  rw [refreshLoop_spec (compileFilters cr filters) db.emails hs account cs hcs
    (db.emails.length + 1) 0 db.filtered hfuel p]
  constructor
  · rintro (hp | ⟨r, hr, hacct, _, hid, hm⟩)
    · exact Or.inl hp
    · exact Or.inr ⟨r, hr, hacct, hid, hm⟩
  · rintro (hp | ⟨r, hr, hacct, hid, hm⟩)
    · exact Or.inl hp
    · have h0 : (0 : Int) < (r.id : Int) := by
        have := hpos r hr
        omega
      exact Or.inr ⟨r, hr, hacct, h0, hid, hm⟩

theorem accountsFold_spec (cr : String → Option (String → Bool))
    (filters : List FilterPattern) (hf : ¬filters.isEmpty = true)
    (cs : Nat) (hcs : 0 < cs) :
    ∀ (accts : List String) (db : Db),
      db.emails.Pairwise (fun r s => r.id < s.id) →
      (∀ r ∈ db.emails, 1 ≤ r.id) →
      ((accts.foldl (fun db acct =>
          refreshMatchesForAccount cr db acct filters cs) db).emails =
        db.emails) ∧
      ((accts.foldl (fun db acct =>
          refreshMatchesForAccount cr db acct filters cs) db).filters =
        db.filters) ∧
      ((accts.foldl (fun db acct =>
          refreshMatchesForAccount cr db acct filters cs) db).filterCursor =
        db.filterCursor) ∧
      (∀ p : Nat × Int,
        p ∈ (accts.foldl (fun db acct =>
            refreshMatchesForAccount cr db acct filters cs) db).filtered ↔
          p ∈ db.filtered ∨ ∃ r ∈ db.emails, r.account ∈ accts ∧
            p.1 = r.id ∧
            p.2 ∈ matchFilters r.subject r.sender (compileFilters cr filters)) := by
  intro accts
  induction accts with
  | nil =>
    intro db _ _
    refine ⟨rfl, rfl, rfl, ?_⟩
    intro p
    simp
  | cons acct accts ih =>
    intro db hsr hpos
    rw [List.foldl_cons]
    set db1 := refreshMatchesForAccount cr db acct filters cs with hdb1
    have hfields := refreshMatchesForAccount_fields cr db acct filters cs
    have hsr1 : db1.emails.Pairwise (fun r s => r.id < s.id) := by
      rw [hdb1, hfields.1]
      exact hsr
    have hpos1 : ∀ r ∈ db1.emails, 1 ≤ r.id := by
      rw [hdb1, hfields.1]
      exact hpos
    obtain ⟨he, hfil, hcur, hmem⟩ := ih db1 hsr1 hpos1
    refine ⟨he.trans hfields.1, hfil.trans hfields.2.1,
      hcur.trans hfields.2.2, ?_⟩
    intro p
    rw [hmem p, refreshMatchesForAccount_spec cr db hsr hpos acct filters hf
      cs hcs p]
    rw [hfields.1]
    constructor
    · rintro ((hp | ⟨r, hr, hacct, hid, hm⟩) | ⟨r, hr, haccts, hid, hm⟩)
      · exact Or.inl hp
      · refine Or.inr ⟨r, hr, ?_, hid, hm⟩
        rw [hacct]
        exact List.mem_cons_self acct accts
      · exact Or.inr ⟨r, hr, List.mem_cons_of_mem acct haccts, hid, hm⟩
    · rintro (hp | ⟨r, hr, haccts, hid, hm⟩)
      · exact Or.inl (Or.inl hp)
      · rcases List.mem_cons.mp haccts with heq | hin
        · exact Or.inl (Or.inr ⟨r, hr, heq, hid, hm⟩)
        · exact Or.inr ⟨r, hr, hin, hid, hm⟩

theorem findById_mem_id (l : List FilterPattern) (i : Int)
    (g : FilterPattern) (h : findById l i = some g) : g ∈ l ∧ g.id = i := by
  refine ⟨List.mem_of_find?_eq_some h, ?_⟩
  have := List.find?_some h
  simpa using this

theorem findById_eq_none (l : List FilterPattern) (i : Int) :
    findById l i = none ↔ ∀ g ∈ l, g.id ≠ i := by
  unfold findById
  rw [List.find?_eq_none]
  constructor
  · intro h g hg
    have := h g hg
    simpa using this
  · intro h g hg
    simpa using h g hg

theorem findById_of_mem_nodup (l : List FilterPattern)
    (hnd : (l.map (fun f => f.id)).Nodup) (g : FilterPattern) (hg : g ∈ l) :
    findById l g.id = some g := by
  induction l with
  | nil => exact absurd hg (List.not_mem_nil g)
  | cons a t ih =>
    simp only [List.map_cons, List.nodup_cons] at hnd
    rcases List.mem_cons.mp hg with rfl | hgt
    · unfold findById
      rw [@List.find?_cons_of_pos _ (fun f => f.id == g.id) g t (by simp)]
    · have hne : ¬(a.id == g.id) = true := by
        simp only [beq_iff_eq]
        intro hc
        exact hnd.1 (hc ▸ List.mem_map_of_mem (fun f => f.id) hgt)
      unfold findById
      rw [@List.find?_cons_of_neg _ (fun f => f.id == g.id) a t hne]
      exact ih hnd.2 hgt

theorem findById_removeById_ne (l : List FilterPattern) (i j : Int)
    (hne : j ≠ i) : findById (removeById l i) j = findById l j := by
  induction l with
  | nil => rfl
  | cons a t ih =>
    unfold removeById
    rw [List.filter_cons]
    by_cases hai : a.id = i
    · have hb : (a.id != i) = false := by simp [hai]
      rw [hb]
      simp only [Bool.false_eq_true, if_false]
      have hnaj : ¬(a.id == j) = true := by
        simp only [beq_iff_eq]
        intro hc
        apply hne
        omega
      conv_rhs => rw [show findById (a :: t) j =
        List.find? (fun f => f.id == j) (a :: t) from rfl]
      rw [@List.find?_cons_of_neg _ (fun f => f.id == j) a t hnaj]
      exact ih
    · have hb : (a.id != i) = true := by simp [hai]
      rw [hb]
      simp only [if_true]
      show List.find? (fun f => f.id == j) (a :: removeById t i) =
        findById (a :: t) j
      by_cases haj : a.id = j
      · rw [@List.find?_cons_of_pos _ (fun f => f.id == j) a (removeById t i)
          (by simpa using haj)]
        conv_rhs => rw [show findById (a :: t) j =
          List.find? (fun f => f.id == j) (a :: t) from rfl]
        rw [@List.find?_cons_of_pos _ (fun f => f.id == j) a t
          (by simpa using haj)]
      · rw [@List.find?_cons_of_neg _ (fun f => f.id == j) a (removeById t i)
          (by simpa using haj)]
        conv_rhs => rw [show findById (a :: t) j =
          List.find? (fun f => f.id == j) (a :: t) from rfl]
        rw [@List.find?_cons_of_neg _ (fun f => f.id == j) a t
          (by simpa using haj)]
        exact ih

theorem mem_removeById (l : List FilterPattern) (i : Int) (g : FilterPattern) :
    g ∈ removeById l i ↔ g ∈ l ∧ g.id ≠ i := by
  unfold removeById
  rw [List.mem_filter]
  constructor
  · rintro ⟨h1, h2⟩
    exact ⟨h1, by simpa using h2⟩
  · rintro ⟨h1, h2⟩
    exact ⟨h1, by simpa using h2⟩

theorem classify_sublists : ∀ (patterns existing : List FilterPattern),
    (classifyFilters patterns existing).1.Sublist patterns ∧
    (classifyFilters patterns existing).2.1.Sublist patterns ∧
    (classifyFilters patterns existing).2.2.1.Sublist patterns ∧
    (classifyFilters patterns existing).2.2.2.Sublist existing := by
  intro patterns
  induction patterns with
  | nil =>
    intro existing
    exact ⟨List.nil_sublist _, List.nil_sublist _, List.nil_sublist _,
      List.Sublist.refl _⟩
  | cons f rest ih =>
    intro existing
    unfold classifyFilters
    cases hfb : findById existing f.id with
    | some prev =>
      obtain ⟨h1, h2, h3, h4⟩ := ih (removeById existing f.id)
      have h4e : (classifyFilters rest (removeById existing
          f.id)).2.2.2.Sublist existing :=
        h4.trans (List.filter_sublist existing)
      by_cases hch : changedB prev f = true
      · simp only [hch, if_true]
        exact ⟨h1.cons f, h2.cons₂ f, h3.cons f, h4e⟩
      · simp only [Bool.not_eq_true] at hch
        simp only [hch, Bool.false_eq_true, if_false]
        by_cases htc : (prev.name != f.name || prev.enabled != f.enabled) = true
        · simp only [htc, if_true]
          exact ⟨h1.cons f, h2.cons f, h3.cons₂ f, h4e⟩
        · simp only [Bool.not_eq_true] at htc
          simp only [htc, Bool.false_eq_true, if_false]
          exact ⟨h1.cons f, h2.cons f, h3.cons f, h4e⟩
    | none =>
      obtain ⟨h1, h2, h3, h4⟩ := ih existing
      exact ⟨h1.cons₂ f, h2.cons f, h3.cons f, h4⟩

theorem classify_upd_iff : ∀ (patterns existing : List FilterPattern),
    (patterns.map (fun f => f.id)).Nodup →
    ∀ f : FilterPattern,
      f ∈ (classifyFilters patterns existing).2.1 ↔
        f ∈ patterns ∧ ∃ prev, findById existing f.id = some prev ∧
          changedB prev f = true := by
  intro patterns
  induction patterns with
  | nil =>
    intro existing _ f
    simp [classifyFilters]
  | cons x rest ih =>
    intro existing hnd f
    simp only [List.map_cons, List.nodup_cons] at hnd
    have hxid : x.id ∉ rest.map (fun f => f.id) := hnd.1
    unfold classifyFilters
    cases hfb : findById existing x.id with
    | some prev =>
      have hihf : ∀ g : FilterPattern, g ∈ rest →
          findById (removeById existing x.id) g.id = findById existing g.id := by
        intro g hg
        apply findById_removeById_ne
        intro hc
        exact hxid (hc ▸ List.mem_map_of_mem (fun f => f.id) hg)
      have hmain : f ∈ (classifyFilters rest (removeById existing x.id)).2.1 ↔
          f ∈ rest ∧ ∃ prev2, findById existing f.id = some prev2 ∧
            changedB prev2 f = true := by
        rw [ih (removeById existing x.id) hnd.2 f]
        constructor
        · rintro ⟨hfr, prev2, hf2, hch⟩
          rw [hihf f hfr] at hf2
          exact ⟨hfr, prev2, hf2, hch⟩
        · rintro ⟨hfr, prev2, hf2, hch⟩
          rw [← hihf f hfr] at hf2
          exact ⟨hfr, prev2, hf2, hch⟩
      have hnotx : ∀ hfr : f ∈ rest, f ≠ x := by
        intro hfr hc
        subst hc
        exact hxid (List.mem_map_of_mem (fun f => f.id) hfr)
      by_cases hch : changedB prev x = true
      · simp only [hch, if_true, List.mem_cons]
        constructor
        · rintro (rfl | hin)
          · exact ⟨Or.inl rfl, prev, hfb, hch⟩
          · obtain ⟨hfr, prev2, hf2, hch2⟩ := hmain.mp hin
            exact ⟨Or.inr hfr, prev2, hf2, hch2⟩
        · rintro ⟨hfp, prev2, hf2, hch2⟩
          rcases hfp with rfl | hfr
          · rw [hfb] at hf2
            cases hf2
            exact Or.inl rfl
          · exact Or.inr (hmain.mpr ⟨hfr, prev2, hf2, hch2⟩)
      · simp only [Bool.not_eq_true] at hch
        have hbody : f ∈ (if (prev.name != x.name || prev.enabled != x.enabled) = true
            then ((classifyFilters rest (removeById existing x.id)).1,
              (classifyFilters rest (removeById existing x.id)).2.1,
              x :: (classifyFilters rest (removeById existing x.id)).2.2.1,
              (classifyFilters rest (removeById existing x.id)).2.2.2)
            else classifyFilters rest (removeById existing x.id)).2.1 ↔
            f ∈ (classifyFilters rest (removeById existing x.id)).2.1 := by
          by_cases htc : (prev.name != x.name || prev.enabled != x.enabled) = true
          · simp only [htc, if_true]
          · simp only [htc, Bool.false_eq_true, if_false]
        simp only [hch, Bool.false_eq_true, if_false]
        rw [hbody, hmain]
        constructor
        · rintro ⟨hfr, prev2, hf2, hch2⟩
          exact ⟨List.mem_cons_of_mem x hfr, prev2, hf2, hch2⟩
        · rintro ⟨hfp, prev2, hf2, hch2⟩
          rcases List.mem_cons.mp hfp with rfl | hfr
          · rw [hfb] at hf2
            cases hf2
            rw [hch] at hch2
            exact absurd hch2 (by simp)
          · exact ⟨hfr, prev2, hf2, hch2⟩
    | none =>
      simp only []
      rw [ih existing hnd.2 f]
      constructor
      · rintro ⟨hfr, prev2, hf2, hch2⟩
        exact ⟨List.mem_cons_of_mem x hfr, prev2, hf2, hch2⟩
      · rintro ⟨hfp, prev2, hf2, hch2⟩
        rcases List.mem_cons.mp hfp with rfl | hfr
        · rw [hfb] at hf2
          cases hf2
        · exact ⟨hfr, prev2, hf2, hch2⟩

theorem classify_ins_iff : ∀ (patterns existing : List FilterPattern),
    (patterns.map (fun f => f.id)).Nodup →
    ∀ f : FilterPattern,
      f ∈ (classifyFilters patterns existing).1 ↔
        f ∈ patterns ∧ findById existing f.id = none := by
  intro patterns
  induction patterns with
  | nil =>
    intro existing _ f
    simp [classifyFilters]
  | cons x rest ih =>
    intro existing hnd f
    simp only [List.map_cons, List.nodup_cons] at hnd
    have hxid : x.id ∉ rest.map (fun f => f.id) := hnd.1
    unfold classifyFilters
    cases hfb : findById existing x.id with
    | some prev =>
      have hihf : ∀ g : FilterPattern, g ∈ rest →
          findById (removeById existing x.id) g.id = findById existing g.id := by
        intro g hg
        apply findById_removeById_ne
        intro hc
        exact hxid (hc ▸ List.mem_map_of_mem (fun f => f.id) hg)
      have hmain : f ∈ (classifyFilters rest (removeById existing x.id)).1 ↔
          f ∈ rest ∧ findById existing f.id = none := by
        rw [ih (removeById existing x.id) hnd.2 f]
        constructor
        · rintro ⟨hfr, hfe⟩
          rw [hihf f hfr] at hfe
          exact ⟨hfr, hfe⟩
        · rintro ⟨hfr, hfe⟩
          rw [← hihf f hfr] at hfe
          exact ⟨hfr, hfe⟩
      have hiff2 : f ∈ x :: rest ∧ findById existing f.id = none ↔
          f ∈ rest ∧ findById existing f.id = none := by
        constructor
        · rintro ⟨hfp, hfe⟩
          rcases List.mem_cons.mp hfp with rfl | hfr
          · rw [hfb] at hfe
            cases hfe
          · exact ⟨hfr, hfe⟩
        · rintro ⟨hfr, hfe⟩
          exact ⟨List.mem_cons_of_mem x hfr, hfe⟩
      by_cases h1 : changedB prev x = true
      · simp only [h1, if_true]
        rw [hmain]
        exact hiff2.symm
      · simp only [Bool.not_eq_true] at h1
        simp only [h1, Bool.false_eq_true, if_false]
        by_cases h2 : (prev.name != x.name || prev.enabled != x.enabled) = true
        · simp only [h2, if_true]
          rw [hmain]
          exact hiff2.symm
        · simp only [Bool.not_eq_true] at h2
          simp only [h2, Bool.false_eq_true, if_false]
          rw [hmain]
          exact hiff2.symm
    | none =>
      simp only [List.mem_cons]
      constructor
      · rintro (rfl | hfr)
        · exact ⟨Or.inl rfl, hfb⟩
        · obtain ⟨hfr2, hfe⟩ := (ih existing hnd.2 f).mp hfr
          exact ⟨Or.inr hfr2, hfe⟩
      · rintro ⟨hfp, hfe⟩
        rcases hfp with rfl | hfr
        · exact Or.inl rfl
        · exact Or.inr ((ih existing hnd.2 f).mpr ⟨hfr, hfe⟩)

theorem classify_rem_iff : ∀ (patterns existing : List FilterPattern),
    ∀ g : FilterPattern,
      g ∈ (classifyFilters patterns existing).2.2.2 ↔
        g ∈ existing ∧ ∀ f ∈ patterns, f.id ≠ g.id := by
  intro patterns
  induction patterns with
  | nil =>
    intro existing g
    simp [classifyFilters]
  | cons x rest ih =>
    intro existing g
    unfold classifyFilters
    cases hfb : findById existing x.id with
    | some prev =>
      have hmain : g ∈ (classifyFilters rest (removeById existing x.id)).2.2.2 ↔
          (g ∈ existing ∧ g.id ≠ x.id) ∧ ∀ f ∈ rest, f.id ≠ g.id := by
        rw [ih (removeById existing x.id) g, mem_removeById]
      have hiff2 : (g ∈ existing ∧ g.id ≠ x.id) ∧ (∀ f ∈ rest, f.id ≠ g.id) ↔
          g ∈ existing ∧ ∀ f ∈ x :: rest, f.id ≠ g.id := by
        constructor
        · rintro ⟨⟨hge, hgx⟩, hall⟩
          refine ⟨hge, ?_⟩
          intro f hf
          rcases List.mem_cons.mp hf with rfl | hfr
          · exact fun hc => hgx hc.symm
          · exact hall f hfr
        · rintro ⟨hge, hall⟩
          refine ⟨⟨hge, ?_⟩, ?_⟩
          · intro hc
            exact hall x (List.mem_cons_self x rest) hc.symm
          · intro f hf
            exact hall f (List.mem_cons_of_mem x hf)
      by_cases h1 : changedB prev x = true
      · simp only [h1, if_true]
        rw [hmain]
        exact hiff2
      · simp only [Bool.not_eq_true] at h1
        simp only [h1, Bool.false_eq_true, if_false]
        by_cases h2 : (prev.name != x.name || prev.enabled != x.enabled) = true
        · simp only [h2, if_true]
          rw [hmain]
          exact hiff2
        · simp only [Bool.not_eq_true] at h2
          simp only [h2, Bool.false_eq_true, if_false]
          rw [hmain]
          exact hiff2
    | none =>
      have hx : ∀ h ∈ existing, h.id ≠ x.id :=
        (findById_eq_none existing x.id).mp hfb
      simp only []
      rw [ih existing g]
      constructor
      · rintro ⟨hge, hall⟩
        refine ⟨hge, ?_⟩
        intro f hf
        rcases List.mem_cons.mp hf with rfl | hfr
        · exact fun hc => hx g hge hc.symm
        · exact hall f hfr
      · rintro ⟨hge, hall⟩
        exact ⟨hge, fun f hf => hall f (List.mem_cons_of_mem x hf)⟩

theorem classify_tch_iff : ∀ (patterns existing : List FilterPattern),
    (patterns.map (fun f => f.id)).Nodup →
    ∀ f : FilterPattern,
      f ∈ (classifyFilters patterns existing).2.2.1 ↔
        f ∈ patterns ∧ ∃ prev, findById existing f.id = some prev ∧
          changedB prev f = false ∧
          (prev.name != f.name || prev.enabled != f.enabled) = true := by
  intro patterns
  induction patterns with
  | nil =>
    intro existing _ f
    simp [classifyFilters]
  | cons x rest ih =>
    intro existing hnd f
    simp only [List.map_cons, List.nodup_cons] at hnd
    have hxid : x.id ∉ rest.map (fun f => f.id) := hnd.1
    unfold classifyFilters
    cases hfb : findById existing x.id with
    | some prev =>
      have hihf : ∀ g : FilterPattern, g ∈ rest →
          findById (removeById existing x.id) g.id = findById existing g.id := by
        intro g hg
        apply findById_removeById_ne
        intro hc
        exact hxid (hc ▸ List.mem_map_of_mem (fun f => f.id) hg)
      have hmain : f ∈ (classifyFilters rest (removeById existing x.id)).2.2.1 ↔
          f ∈ rest ∧ ∃ prev2, findById existing f.id = some prev2 ∧
            changedB prev2 f = false ∧
            (prev2.name != f.name || prev2.enabled != f.enabled) = true := by
        rw [ih (removeById existing x.id) hnd.2 f]
        constructor
        · rintro ⟨hfr, prev2, hf2, hc1, hc2⟩
          rw [hihf f hfr] at hf2
          exact ⟨hfr, prev2, hf2, hc1, hc2⟩
        · rintro ⟨hfr, prev2, hf2, hc1, hc2⟩
          rw [← hihf f hfr] at hf2
          exact ⟨hfr, prev2, hf2, hc1, hc2⟩
      by_cases h1 : changedB prev x = true
      · simp only [h1, if_true]
        rw [hmain]
        constructor
        · rintro ⟨hfr, prev2, hf2, hc1, hc2⟩
          exact ⟨List.mem_cons_of_mem x hfr, prev2, hf2, hc1, hc2⟩
        · rintro ⟨hfp, prev2, hf2, hc1, hc2⟩
          rcases List.mem_cons.mp hfp with rfl | hfr
          · rw [hfb] at hf2
            cases hf2
            rw [h1] at hc1
            cases hc1
          · exact ⟨hfr, prev2, hf2, hc1, hc2⟩
      · simp only [Bool.not_eq_true] at h1
        simp only [h1, Bool.false_eq_true, if_false]
        by_cases h2 : (prev.name != x.name || prev.enabled != x.enabled) = true
        · simp only [h2, if_true, List.mem_cons]
          constructor
          · rintro (rfl | hin)
            · exact ⟨Or.inl rfl, prev, hfb, h1, h2⟩
            · obtain ⟨hfr, prev2, hf2, hc1, hc2⟩ := hmain.mp hin
              exact ⟨Or.inr hfr, prev2, hf2, hc1, hc2⟩
          · rintro ⟨hfp, prev2, hf2, hc1, hc2⟩
            rcases hfp with rfl | hfr
            · exact Or.inl rfl
            · exact Or.inr (hmain.mpr ⟨hfr, prev2, hf2, hc1, hc2⟩)
        · simp only [Bool.not_eq_true] at h2
          simp only [h2, Bool.false_eq_true, if_false]
          rw [hmain]
          constructor
          · rintro ⟨hfr, prev2, hf2, hc1, hc2⟩
            exact ⟨List.mem_cons_of_mem x hfr, prev2, hf2, hc1, hc2⟩
          · rintro ⟨hfp, prev2, hf2, hc1, hc2⟩
            rcases List.mem_cons.mp hfp with rfl | hfr
            · rw [hfb] at hf2
              cases hf2
              rw [h2] at hc2
              cases hc2
            · exact ⟨hfr, prev2, hf2, hc1, hc2⟩
    | none =>
      simp only []
      rw [ih existing hnd.2 f]
      constructor
      · rintro ⟨hfr, prev2, hf2, hc1, hc2⟩
        exact ⟨List.mem_cons_of_mem x hfr, prev2, hf2, hc1, hc2⟩
      · rintro ⟨hfp, prev2, hf2, hc1, hc2⟩
        rcases List.mem_cons.mp hfp with rfl | hfr
        · rw [hfb] at hf2
          cases hf2
        · exact ⟨hfr, prev2, hf2, hc1, hc2⟩

theorem insertFold_eq (ti : List FilterPattern) :
    ∀ (db0 : Db) (acc0 : List FilterPattern),
      ti.foldl
        (fun (acc : Db × List FilterPattern) f =>
          ({ acc.1 with
              filters := acc.1.filters ++ [{ f with id := acc.1.nextFilterId }]
              nextFilterId := acc.1.nextFilterId + 1 },
           acc.2 ++ [{ f with id := acc.1.nextFilterId }]))
        (db0, acc0) =
      ({ db0 with
          filters := db0.filters ++ insertedFilters db0.nextFilterId ti
          nextFilterId := db0.nextFilterId + ti.length },
       acc0 ++ insertedFilters db0.nextFilterId ti) := by
  induction ti with
  | nil =>
    intro db0 acc0
    simp [insertedFilters]
  | cons f rest ih =>
    intro db0 acc0
    rw [List.foldl_cons]
    refine Eq.trans (ih _ _) ?_
    simp only [insertedFilters, List.length_cons, List.append_assoc,
      List.singleton_append, Prod.mk.injEq, Db.mk.injEq]
    push_cast
    exact ⟨⟨trivial, trivial, trivial, by omega, trivial, trivial, trivial⟩,
      trivial⟩

theorem mem_insertedFilters (ti : List FilterPattern) :
    ∀ (nfid : Int) (g : FilterPattern), g ∈ insertedFilters nfid ti →
      ∃ f ∈ ti, nfid ≤ g.id ∧ g = { f with id := g.id } := by
  induction ti with
  | nil =>
    intro nfid g hg
    exact absurd hg (List.not_mem_nil g)
  | cons f rest ih =>
    intro nfid g hg
    rcases List.mem_cons.mp hg with rfl | hin
    · exact ⟨f, List.mem_cons_self f rest, le_refl _, rfl⟩
    · obtain ⟨f2, hf2, hle, heq⟩ := ih (nfid + 1) g hin
      exact ⟨f2, List.mem_cons_of_mem f hf2, by omega, heq⟩

theorem insertedFilters_exists (ti : List FilterPattern) :
    ∀ (nfid : Int) (f : FilterPattern), f ∈ ti →
      ∃ g ∈ insertedFilters nfid ti, nfid ≤ g.id ∧ g = { f with id := g.id } := by
  induction ti with
  | nil =>
    intro nfid f hf
    exact absurd hf (List.not_mem_nil f)
  | cons x rest ih =>
    intro nfid f hf
    rcases List.mem_cons.mp hf with rfl | hfr
    · exact ⟨{ f with id := nfid }, List.mem_cons_self _ _, le_refl _, rfl⟩
    · obtain ⟨g, hg, hle, heq⟩ := ih (nfid + 1) f hfr
      exact ⟨g, List.mem_cons_of_mem _ hg, by omega, heq⟩

theorem insertedFilters_ids_bounds (ti : List FilterPattern) :
    ∀ (nfid : Int) (g : FilterPattern), g ∈ insertedFilters nfid ti →
      nfid ≤ g.id ∧ g.id < nfid + ti.length := by
  induction ti with
  | nil =>
    intro nfid g hg
    exact absurd hg (List.not_mem_nil g)
  | cons f rest ih =>
    intro nfid g hg
    rcases List.mem_cons.mp hg with rfl | hin
    · refine ⟨le_refl _, ?_⟩
      simp only [List.length_cons]
      push_cast
      omega
    · obtain ⟨h1, h2⟩ := ih (nfid + 1) g hin
      refine ⟨by omega, ?_⟩
      simp only [List.length_cons]
      push_cast
      omega

theorem insertedFilters_ids_nodup (ti : List FilterPattern) :
    ∀ nfid : Int, ((insertedFilters nfid ti).map (fun f => f.id)).Nodup := by
  induction ti with
  | nil =>
    intro nfid
    exact List.nodup_nil
  | cons f rest ih =>
    intro nfid
    simp only [insertedFilters, List.map_cons, List.nodup_cons]
    refine ⟨?_, ih (nfid + 1)⟩
    intro hc
    obtain ⟨g, hg, hgid⟩ := List.mem_map.mp hc
    have := (insertedFilters_ids_bounds rest (nfid + 1) g hg).1
    have hgid2 : g.id = nfid := hgid
    omega

theorem updateFold_eq (L : List FilterPattern) :
    ∀ db0 : Db,
      L.foldl (fun db f => { db with filters := db.filters.map (updOne f) })
        db0 =
      { db0 with filters := db0.filters.map (fun g => applyUpdates L g) } := by
  induction L with
  | nil =>
    intro db0
    simp only [List.foldl_nil, applyUpdates]
    cases db0
    simp
  | cons f rest ih =>
    intro db0
    rw [List.foldl_cons, ih]
    simp only [List.map_map, Db.mk.injEq]
    refine ⟨trivial, trivial, ?_, trivial, trivial, trivial, trivial⟩
    apply List.map_congr_left
    intro g _
    rfl

theorem updOne_id (f g : FilterPattern) : (updOne f g).id = g.id := by
  unfold updOne
  split
  · rfl
  · rfl

theorem applyUpdates_id (L : List FilterPattern) :
    ∀ g : FilterPattern, (applyUpdates L g).id = g.id := by
  induction L with
  | nil =>
    intro g
    rfl
  | cons f rest ih =>
    intro g
    unfold applyUpdates
    rw [List.foldl_cons]
    have := ih (updOne f g)
    unfold applyUpdates at this
    rw [this, updOne_id]

theorem applyUpdates_of_not_mem (L : List FilterPattern) :
    ∀ g : FilterPattern, (∀ f ∈ L, f.id ≠ g.id) → applyUpdates L g = g := by
  induction L with
  | nil =>
    intro g _
    rfl
  | cons f rest ih =>
    intro g hall
    unfold applyUpdates
    rw [List.foldl_cons]
    have hone : updOne f g = g := by
      unfold updOne
      rw [if_neg]
      simp only [beq_iff_eq]
      intro hc
      exact hall f (List.mem_cons_self f rest) hc.symm
    rw [hone]
    exact ih g (fun f2 hf2 => hall f2 (List.mem_cons_of_mem f hf2))

theorem applyUpdates_mem (L : List FilterPattern) :
    ∀ (g f : FilterPattern), (L.map (fun f => f.id)).Nodup → f ∈ L →
      g.id = f.id →
      applyUpdates L g =
        { g with name := f.name, pattern := f.pattern, field := f.field,
                 is_regex := f.is_regex, enabled := f.enabled } := by
  induction L with
  | nil =>
    intro g f _ hf _
    exact absurd hf (List.not_mem_nil f)
  | cons x rest ih =>
    intro g f hnd hf hid
    simp only [List.map_cons, List.nodup_cons] at hnd
    unfold applyUpdates
    rw [List.foldl_cons]
    by_cases hx : g.id = x.id
    · have hfx : f = x := by
        rcases List.mem_cons.mp hf with rfl | hfr
        · rfl
        · exfalso
          apply hnd.1
          have hfxid : f.id = x.id := by omega
          rw [← hfxid]
          exact List.mem_map_of_mem (fun f => f.id) hfr
      subst hfx
      have hone : updOne f g = { g with name := f.name, pattern := f.pattern, field := f.field, is_regex := f.is_regex, enabled := f.enabled } := by
        unfold updOne
        rw [if_pos (by simpa using hx)]
      rw [hone]
      set g2 := ({ g with name := f.name, pattern := f.pattern, field := f.field, is_regex := f.is_regex, enabled := f.enabled } : FilterPattern) with hg2
      have hrest : ∀ f2 ∈ rest, f2.id ≠ g2.id := by
        intro f2 hf2 hc
        apply hnd.1
        have hg2id : g2.id = g.id := rfl
        rw [hg2id] at hc
        have hf2f : f2.id = f.id := by omega
        rw [← hf2f]
        exact List.mem_map_of_mem (fun f => f.id) hf2
      have h2 := applyUpdates_of_not_mem rest g2 hrest
      unfold applyUpdates at h2
      exact h2
    · have hone : updOne x g = g := by
        unfold updOne
        rw [if_neg (by simpa using hx)]
      rw [hone]
      have hfr : f ∈ rest := by
        rcases List.mem_cons.mp hf with rfl | hfr
        · exact absurd hid hx
        · exact hfr
      have := ih g f hnd.2 hfr hid
      unfold applyUpdates at this
      exact this

theorem accountsFold_fields (cr : String → Option (String → Bool))
    (filters : List FilterPattern) (cs : Nat) :
    ∀ (accts : List String) (db0 : Db),
      ((accts.foldl (fun db acct =>
          refreshMatchesForAccount cr db acct filters cs) db0).emails =
        db0.emails) ∧
      ((accts.foldl (fun db acct =>
          refreshMatchesForAccount cr db acct filters cs) db0).filters =
        db0.filters) ∧
      ((accts.foldl (fun db acct =>
          refreshMatchesForAccount cr db acct filters cs) db0).filterCursor =
        db0.filterCursor) := by
  intro accts
  induction accts with
  | nil =>
    intro db0
    exact ⟨rfl, rfl, rfl⟩
  | cons acct accts ih =>
    intro db0
    rw [List.foldl_cons]
    have h1 := refreshMatchesForAccount_fields cr db0 acct filters cs
    obtain ⟨he, hf, hc⟩ := ih (refreshMatchesForAccount cr db0 acct filters cs)
    exact ⟨he.trans h1.1, hf.trans h1.2.1, hc.trans h1.2.2⟩

theorem insertPhase_eq (db : Db) (ti : List FilterPattern) :
    insertPhase db ti =
      ({ db with
          filters := db.filters ++ insertedFilters db.nextFilterId ti
          nextFilterId := db.nextFilterId + ti.length },
       insertedFilters db.nextFilterId ti) := by
  unfold insertPhase
  rw [insertFold_eq ti db []]
  rw [List.nil_append]

theorem updatePhase_eq (db : Db) (L : List FilterPattern) :
    updatePhase db L =
      { db with filters := db.filters.map (fun g => applyUpdates L g) } := by
  unfold updatePhase
  exact updateFold_eq L db

theorem mem_filter_not_contains (fl : List (Nat × Int)) (ids : List Int)
    (p : Nat × Int) :
    p ∈ fl.filter (fun q => !(ids.contains q.2)) ↔ p ∈ fl ∧ p.2 ∉ ids := by
  rw [List.mem_filter]
  constructor
  · rintro ⟨h1, h2⟩
    refine ⟨h1, fun hc => ?_⟩
    have hcc : ids.contains p.2 = true := List.elem_iff.mpr hc
    rw [hcc] at h2
    exact absurd h2 (by decide)
  · rintro ⟨h1, h2⟩
    refine ⟨h1, ?_⟩
    cases hc : ids.contains p.2 with
    | true => exact absurd (List.elem_iff.mp hc) h2
    | false => rfl

theorem mem_matchFilters_compile (cr : String → Option (String → Bool))
    (L : List FilterPattern) (s sn : String) (fid : Int) :
    fid ∈ matchFilters s sn (compileFilters cr L) ↔
      ∃ g ∈ L, g.id = fid ∧
        fid ∈ matchFilters s sn (compileFilters cr [g]) := by
  rw [mem_matchFilters]
  constructor
  · rintro ⟨c, hc, hm, hcid⟩
    unfold compileFilters at hc
    obtain ⟨g, hg, rfl⟩ := List.mem_map.mp hc
    refine ⟨g, hg, hcid, ?_⟩
    rw [mem_matchFilters]
    refine ⟨_, ?_, hm, hcid⟩
    unfold compileFilters
    exact List.mem_map_of_mem _ (List.mem_singleton_self g)
  · rintro ⟨g, hg, hgid, hmem⟩
    rw [mem_matchFilters] at hmem
    obtain ⟨c, hc, hm, hcid⟩ := hmem
    unfold compileFilters at hc
    obtain ⟨g2, hg2, rfl⟩ := List.mem_map.mp hc
    rw [List.mem_singleton] at hg2
    subst hg2
    refine ⟨_, ?_, hm, hcid⟩
    unfold compileFilters
    exact List.mem_map_of_mem _ hg

theorem refreshPhase_spec (cr : String → Option (String → Bool)) (db0 : Db)
    (hs : db0.emails.Pairwise (fun r s => r.id < s.id))
    (hpos : ∀ r ∈ db0.emails, 1 ≤ r.id) (RL : List FilterPattern) :
    (refreshPhase cr db0 RL).emails = db0.emails ∧
    (refreshPhase cr db0 RL).filters = db0.filters ∧
    ∀ p : Nat × Int,
      p ∈ (refreshPhase cr db0 RL).filtered ↔
        p ∈ db0.filtered ∨ ∃ r ∈ db0.emails, p.1 = r.id ∧
          p.2 ∈ matchFilters r.subject r.sender (compileFilters cr RL) := by
  unfold refreshPhase
  split
  · rename_i hemp
    have hnil : RL = [] := List.isEmpty_iff.mp hemp
    refine ⟨rfl, rfl, ?_⟩
    intro p
    constructor
    · exact Or.inl
    · rintro (hp | ⟨r, _, _, hm⟩)
      · exact hp
      · exfalso
        rw [hnil] at hm
        simp [matchFilters, compileFilters] at hm
  · rename_i hemp
    obtain ⟨he, hf, _, hmem⟩ :=
      accountsFold_spec cr RL hemp 500 (by omega) (filterAccounts db0) db0
        hs hpos
    refine ⟨he, hf, ?_⟩
    intro p
    rw [hmem p]
    constructor
    · rintro (hp | ⟨r, hr, _, hid, hm⟩)
      · exact Or.inl hp
      · exact Or.inr ⟨r, hr, hid, hm⟩
    · rintro (hp | ⟨r, hr, hid, hm⟩)
      · exact Or.inl hp
      · refine Or.inr ⟨r, hr, ?_, hid, hm⟩
        unfold filterAccounts
        exact List.mem_dedup.mpr (List.mem_map_of_mem (fun r => r.account) hr)

theorem saveFilters_filtered_mem (cr : String → Option (String → Bool))
    (db : Db) (hwf : DbWf db) (patterns : List FilterPattern)
    (p : Nat × Int) :
    p ∈ (saveFilters cr db patterns).2.filtered ↔
      (p ∈ db.filtered ∧
        p.2 ∉ ((classifyFilters patterns db.filters).2.2.2).map
          (fun f => f.id) ∧
        p.2 ∉ ((classifyFilters patterns db.filters).2.1).map
          (fun f => f.id)) ∨
      ∃ r ∈ db.emails, p.1 = r.id ∧
        p.2 ∈ matchFilters r.subject r.sender (compileFilters cr
          ((classifyFilters patterns db.filters).2.1 ++
            insertedFilters db.nextFilterId
              (classifyFilters patterns db.filters).1)) := by
  unfold saveFilters
  simp only []
  set res := classifyFilters patterns db.filters with hres
  set dbB := clearMatchesPhase
    (deletePhase db ((res.2.2.2).map (fun f => f.id)))
    ((res.2.1).map (fun f => f.id)) with hdbB
  set dbD := updatePhase (insertPhase dbB res.1).1
    (res.2.1 ++ res.2.2.1) with hdbD
  have hBfields : dbB.emails = db.emails ∧ dbB.nextFilterId = db.nextFilterId ∧
      dbB.filters = db.filters.filter (fun f =>
        !(((res.2.2.2).map (fun g => g.id)).contains f.id)) ∧
      dbB.filtered = (db.filtered.filter (fun q =>
        !(((res.2.2.2).map (fun g => g.id)).contains q.2))).filter (fun q =>
        !(((res.2.1).map (fun g => g.id)).contains q.2)) := by
    rw [hdbB]
    unfold clearMatchesPhase deletePhase
    exact ⟨rfl, rfl, rfl, rfl⟩
  have hins := insertPhase_eq dbB res.1
  have hDfields : dbD.emails = db.emails ∧
      dbD.filtered = dbB.filtered := by
    rw [hdbD, updatePhase_eq, hins]
    exact ⟨hBfields.1, rfl⟩
  have hins2 : (insertPhase dbB res.1).2 =
      insertedFilters db.nextFilterId res.1 := by
    rw [hins, hBfields.2.1]
  have hsD : dbD.emails.Pairwise (fun r s => r.id < s.id) := by
    rw [hDfields.1]
    exact hwf.idsSorted
  have hposD : ∀ r ∈ dbD.emails, 1 ≤ r.id := by
    rw [hDfields.1]
    exact hwf.idsPos
  obtain ⟨_, _, hmem⟩ := refreshPhase_spec cr dbD hsD hposD
    (res.2.1 ++ (insertPhase dbB res.1).2)
  rw [hmem p, hDfields.2, hBfields.2.2.2, hDfields.1, hins2]
  rw [mem_filter_not_contains, mem_filter_not_contains]
  constructor
  · rintro (⟨⟨h1, h2⟩, h3⟩ | ⟨r, hr, hid, hm⟩)
    · exact Or.inl ⟨h1, h2, h3⟩
    · exact Or.inr ⟨r, hr, hid, hm⟩
  · rintro (⟨h1, h2, h3⟩ | ⟨r, hr, hid, hm⟩)
    · exact Or.inl ⟨⟨h1, h2⟩, h3⟩
    · exact Or.inr ⟨r, hr, hid, hm⟩


theorem refreshPhase_filters (cr : String → Option (String → Bool))
    (db0 : Db) (RL : List FilterPattern) :
    (refreshPhase cr db0 RL).filters = db0.filters := by
  unfold refreshPhase
  split
  · rfl
  · exact (accountsFold_fields cr RL 500 (filterAccounts db0) db0).2.1

theorem saveFilters_filters_eq (cr : String → Option (String → Bool))
    (db : Db) (patterns : List FilterPattern) :
    (saveFilters cr db patterns).2.filters =
      ((db.filters.filter (fun f =>
          !((((classifyFilters patterns db.filters).2.2.2).map
            (fun g => g.id)).contains f.id))) ++
        insertedFilters db.nextFilterId
          (classifyFilters patterns db.filters).1).map
        (fun g => applyUpdates ((classifyFilters patterns db.filters).2.1 ++
          (classifyFilters patterns db.filters).2.2.1) g) := by
  unfold saveFilters
  simp only []
  set res := classifyFilters patterns db.filters with hres
  set dbB := clearMatchesPhase
    (deletePhase db ((res.2.2.2).map (fun f => f.id)))
    ((res.2.1).map (fun f => f.id)) with hdbB
  rw [refreshPhase_filters]
  rw [updatePhase_eq, insertPhase_eq]
  have hBf : dbB.filters = db.filters.filter (fun f =>
      !(((res.2.2.2).map (fun g => g.id)).contains f.id)) := by
    rw [hdbB]
    unfold clearMatchesPhase deletePhase
    rfl
  have hBn : dbB.nextFilterId = db.nextFilterId := by
    rw [hdbB]
    unfold clearMatchesPhase deletePhase
    rfl
  rw [hBf, hBn]

/-- C5: save_filters reconciles the submitted rule set against the stored
one. (1) A rule present in both sets whose pattern, regex mode and field are
unchanged (its name and enabled flag may differ) keeps exactly its recorded
FilteredMessage rows. (2) A rule whose match-relevant fields changed has its
rows replaced by a fresh synchronous recomputation of exactly that rule over
all stored messages. (3) A rule present only in the new set is inserted under
a fresh id with its submitted fields and its rows are exactly a fresh
recomputation of that rule. (4) A rule present only in the old set disappears
from the stored rules and no FilteredMessage row for it remains. -/
theorem c5_save_filters_reconciles (cr : String → Option (String → Bool))
    (db : Db) (patterns : List FilterPattern) (hwf : DbWf db)
    (hnd : (patterns.map (fun f => f.id)).Nodup) :
    (∀ f ∈ patterns, ∀ prev, findById db.filters f.id = some prev →
      changedB prev f = false →
      ∀ p : Nat × Int, p.2 = f.id →
        (p ∈ (saveFilters cr db patterns).2.filtered ↔ p ∈ db.filtered)) ∧
    (∀ f ∈ patterns, ∀ prev, findById db.filters f.id = some prev →
      changedB prev f = true →
      ∀ p : Nat × Int, p.2 = f.id →
        (p ∈ (saveFilters cr db patterns).2.filtered ↔
          ∃ r ∈ db.emails, p.1 = r.id ∧
            p.2 ∈ matchFilters r.subject r.sender (compileFilters cr [f]))) ∧
    (∀ f ∈ patterns, findById db.filters f.id = none →
      ∃ g ∈ (saveFilters cr db patterns).2.filters,
        g.name = f.name ∧ g.pattern = f.pattern ∧ g.field = f.field ∧
        g.is_regex = f.is_regex ∧ g.enabled = f.enabled ∧
        db.nextFilterId ≤ g.id ∧
        ∀ p : Nat × Int, p.2 = g.id →
          (p ∈ (saveFilters cr db patterns).2.filtered ↔
            ∃ r ∈ db.emails, p.1 = r.id ∧
              p.2 ∈ matchFilters r.subject r.sender (compileFilters cr [g]))) ∧
    (∀ g ∈ db.filters, (∀ f ∈ patterns, f.id ≠ g.id) →
      (∀ h ∈ (saveFilters cr db patterns).2.filters, h.id ≠ g.id) ∧
      ∀ p ∈ (saveFilters cr db patterns).2.filtered, p.2 ≠ g.id) := by
  have hsub := classify_sublists patterns db.filters
  have hTUid : ∀ f2 ∈ (classifyFilters patterns db.filters).2.1,
      f2 ∈ patterns ∧ f2.id < db.nextFilterId := by
    intro f2 h2
    obtain ⟨hp, prev2, hf2, _⟩ :=
      (classify_upd_iff patterns db.filters hnd f2).mp h2
    obtain ⟨hprevmem, hprevid⟩ := findById_mem_id _ _ _ hf2
    have := hwf.filterIdsLt prev2 hprevmem
    exact ⟨hp, by omega⟩
  have hTTid : ∀ f2 ∈ (classifyFilters patterns db.filters).2.2.1,
      f2 ∈ patterns ∧ f2.id < db.nextFilterId := by
    intro f2 h2
    obtain ⟨hp, prev2, hf2, _, _⟩ :=
      (classify_tch_iff patterns db.filters hnd f2).mp h2
    obtain ⟨hprevmem, hprevid⟩ := findById_mem_id _ _ _ hf2
    have := hwf.filterIdsLt prev2 hprevmem
    exact ⟨hp, by omega⟩
  have hUid : ∀ f2 ∈ (classifyFilters patterns db.filters).2.1 ++
      (classifyFilters patterns db.filters).2.2.1,
      f2 ∈ patterns ∧ f2.id < db.nextFilterId := by
    intro f2 h2
    rcases List.mem_append.mp h2 with h | h
    · exact hTUid f2 h
    · exact hTTid f2 h
  have hUnodup : (((classifyFilters patterns db.filters).2.1 ++
      (classifyFilters patterns db.filters).2.2.1).map
        (fun f => f.id)).Nodup := by
    rw [List.map_append, List.nodup_append]
    refine ⟨hnd.sublist (hsub.2.1.map (fun f => f.id)),
      hnd.sublist (hsub.2.2.1.map (fun f => f.id)), ?_⟩
    intro a ha1 ha2
    obtain ⟨f1, hf1, hf1id⟩ := List.mem_map.mp ha1
    obtain ⟨f2, hf2, hf2id⟩ := List.mem_map.mp ha2
    have hb1 : f1.id = a := hf1id
    have hb2 : f2.id = a := hf2id
    have hf1p := (hTUid f1 hf1).1
    have hf2p := (hTTid f2 hf2).1
    have heq : f2 = f1 :=
      List.inj_on_of_nodup_map hnd hf2p hf1p (by omega)
    obtain ⟨_, prev1, hp1, hch1⟩ :=
      (classify_upd_iff patterns db.filters hnd f1).mp hf1
    obtain ⟨_, prev2, hp2, hch2, _⟩ :=
      (classify_tch_iff patterns db.filters hnd f2).mp hf2
    rw [heq] at hp2 hch2
    rw [hp1] at hp2
    injection hp2 with hp2e
    rw [← hp2e] at hch2
    rw [hch1] at hch2
    cases hch2
  have hINSid : ∀ g ∈ insertedFilters db.nextFilterId
      (classifyFilters patterns db.filters).1, db.nextFilterId ≤ g.id :=
    fun g h => (insertedFilters_ids_bounds _ _ g h).1
  have hINSfix : ∀ g ∈ insertedFilters db.nextFilterId
      (classifyFilters patterns db.filters).1,
      applyUpdates ((classifyFilters patterns db.filters).2.1 ++
        (classifyFilters patterns db.filters).2.2.1) g = g := by
    intro g h
    apply applyUpdates_of_not_mem
    intro f2 hf2 hc
    have h1 := (hUid f2 hf2).2
    have h2 := hINSid g h
    omega
  refine ⟨?_, ?_, ?_, ?_⟩
  · -- (1) unchanged rules keep their rows
    intro f hf prev hprev hch p hpid
    have hfnotTU : f ∉ (classifyFilters patterns db.filters).2.1 := by
      intro hc
      obtain ⟨_, prev2, hp2, hch2⟩ :=
        (classify_upd_iff patterns db.filters hnd f).mp hc
      rw [hprev] at hp2
      injection hp2 with hp2e
      rw [← hp2e] at hch2
      rw [hch] at hch2
      cases hch2
    have hne_upd : p.2 ∉ ((classifyFilters patterns db.filters).2.1).map
        (fun g => g.id) := by
      intro hc
      obtain ⟨f2, hf2, hf2id⟩ := List.mem_map.mp hc
      have hb : f2.id = p.2 := hf2id
      have hf2p := (hTUid f2 hf2).1
      have : f2 = f :=
        List.inj_on_of_nodup_map hnd hf2p hf (by omega)
      rw [this] at hf2
      exact hfnotTU hf2
    have hne_del : p.2 ∉ ((classifyFilters patterns db.filters).2.2.2).map
        (fun g => g.id) := by
      intro hc
      obtain ⟨g2, hg2, hg2id⟩ := List.mem_map.mp hc
      have hb : g2.id = p.2 := hg2id
      obtain ⟨_, hall⟩ := (classify_rem_iff patterns db.filters g2).mp hg2
      exact hall f hf (by omega)
    have hfid_lt : f.id < db.nextFilterId := by
      obtain ⟨hprevmem, hprevid⟩ := findById_mem_id _ _ _ hprev
      have := hwf.filterIdsLt prev hprevmem
      omega
    rw [saveFilters_filtered_mem cr db hwf patterns p]
    constructor
    · rintro (⟨h1, _, _⟩ | ⟨r, hr, hid, hm⟩)
      · exact h1
      · exfalso
        rw [mem_matchFilters_compile] at hm
        obtain ⟨g2, hg2, hg2id, _⟩ := hm
        rcases List.mem_append.mp hg2 with h | h
        · have hf2p := (hTUid g2 h).1
          have : g2 = f :=
            List.inj_on_of_nodup_map hnd hf2p hf (by omega)
          rw [this] at h
          exact hfnotTU h
        · have := hINSid g2 h
          omega
    · intro h1
      exact Or.inl ⟨h1, hne_del, hne_upd⟩
  · -- (2) changed rules: rows replaced by a fresh recomputation
    intro f hf prev hprev hch p hpid
    have hfTU : f ∈ (classifyFilters patterns db.filters).2.1 :=
      (classify_upd_iff patterns db.filters hnd f).mpr ⟨hf, prev, hprev, hch⟩
    have hfid_lt : f.id < db.nextFilterId := by
      obtain ⟨hprevmem, hprevid⟩ := findById_mem_id _ _ _ hprev
      have := hwf.filterIdsLt prev hprevmem
      omega
    rw [saveFilters_filtered_mem cr db hwf patterns p]
    constructor
    · rintro (⟨_, _, h3⟩ | ⟨r, hr, hid, hm⟩)
      · exfalso
        apply h3
        rw [hpid]
        exact List.mem_map_of_mem (fun g => g.id) hfTU
      · rw [mem_matchFilters_compile] at hm
        obtain ⟨g2, hg2, hg2id, hm2⟩ := hm
        rcases List.mem_append.mp hg2 with h | h
        · have hf2p := (hTUid g2 h).1
          have heq : g2 = f :=
            List.inj_on_of_nodup_map hnd hf2p hf (by omega)
          rw [heq] at hm2
          exact ⟨r, hr, hid, hm2⟩
        · exfalso
          have := hINSid g2 h
          omega
    · rintro ⟨r, hr, hid, hm⟩
      refine Or.inr ⟨r, hr, hid, ?_⟩
      rw [mem_matchFilters_compile]
      exact ⟨f, List.mem_append_left _ hfTU, by omega, hm⟩
  · -- (3) new rules: inserted with a fresh id and recomputed
    intro f hf hnone
    have hfTI : f ∈ (classifyFilters patterns db.filters).1 :=
      (classify_ins_iff patterns db.filters hnd f).mpr ⟨hf, hnone⟩
    obtain ⟨g, hgINS, hgle, hgeq⟩ :=
      insertedFilters_exists (classifyFilters patterns db.filters).1
        db.nextFilterId f hfTI
    have hgmem : g ∈ (saveFilters cr db patterns).2.filters := by
      rw [saveFilters_filters_eq cr db patterns]
      refine List.mem_map.mpr ⟨g, ?_, hINSfix g hgINS⟩
      exact List.mem_append_right _ hgINS
    refine ⟨g, hgmem, by rw [hgeq], by rw [hgeq], by rw [hgeq],
      by rw [hgeq], by rw [hgeq], hgle, ?_⟩
    intro p hpid
    rw [saveFilters_filtered_mem cr db hwf patterns p]
    constructor
    · rintro (⟨h1, _, _⟩ | ⟨r, hr, hid, hm⟩)
      · exfalso
        obtain ⟨fl, hfl, hflid⟩ := hwf.filteredLive p h1
        have := hwf.filterIdsLt fl hfl
        omega
      · rw [mem_matchFilters_compile] at hm
        obtain ⟨g2, hg2, hg2id, hm2⟩ := hm
        rcases List.mem_append.mp hg2 with h | h
        · exfalso
          have := (hTUid g2 h).2
          omega
        · have heq : g2 = g :=
            List.inj_on_of_nodup_map
              (insertedFilters_ids_nodup
                (classifyFilters patterns db.filters).1 db.nextFilterId)
              h hgINS (by omega)
          rw [heq] at hm2
          exact ⟨r, hr, hid, hm2⟩
    · rintro ⟨r, hr, hid, hm⟩
      refine Or.inr ⟨r, hr, hid, ?_⟩
      rw [mem_matchFilters_compile]
      exact ⟨g, List.mem_append_right _ hgINS, by omega, hm⟩
  · -- (4) removed rules disappear with their rows
    intro g hg hall
    have hgREM : g ∈ (classifyFilters patterns db.filters).2.2.2 :=
      (classify_rem_iff patterns db.filters g).mpr ⟨hg, hall⟩
    have hgdel : g.id ∈ ((classifyFilters patterns db.filters).2.2.2).map
        (fun f => f.id) := List.mem_map_of_mem (fun f => f.id) hgREM
    have hglt : g.id < db.nextFilterId := hwf.filterIdsLt g hg
    constructor
    · intro h hh
      rw [saveFilters_filters_eq cr db patterns] at hh
      obtain ⟨h0, hh0, rfl⟩ := List.mem_map.mp hh
      rw [applyUpdates_id]
      rcases List.mem_append.mp hh0 with hk | hk
      · obtain ⟨_, hk2⟩ := List.mem_filter.mp hk
        intro hc
        have : (((classifyFilters patterns db.filters).2.2.2).map
            (fun f => f.id)).contains h0.id = true :=
          List.elem_iff.mpr (hc ▸ hgdel)
        rw [this] at hk2
        exact absurd hk2 (by decide)
      · have := hINSid h0 hk
        intro hc
        omega
    · intro p hp
      rw [saveFilters_filtered_mem cr db hwf patterns p] at hp
      rcases hp with ⟨_, h2, _⟩ | ⟨r, hr, hid, hm⟩
      · intro hc
        exact h2 (hc ▸ hgdel)
      · rw [mem_matchFilters_compile] at hm
        obtain ⟨g2, hg2, hg2id, _⟩ := hm
        rcases List.mem_append.mp hg2 with h | h
        · have hg2p := (hTUid g2 h).1
          have := hall g2 hg2p
          omega
        · have := hINSid g2 h
          omega

/-- Stored state instantiating claim C5: one message and one stored
substring rule whose pattern the submission changes. -/
def c5Db : Db :=
  { emails := [mkRow 1 10 "invoice due" "x@y.com" "a" 1]
    nextId := 2
    filters := [mkFilter 1 "xxx" .subject false true]
    nextFilterId := 2
    filtered := []
    filterCursor := []
    clock := 0 }

/-- The submitted rule set of the C5 scenario: the stored rule with a new
pattern. -/
def c5Patterns : List FilterPattern := [mkFilter 1 "invoice" .subject false true]

theorem c5_save_filters_reconciles_witness :
    DbWf c5Db ∧ ((c5Patterns.map (fun f => f.id)).Nodup) ∧
    (mkFilter 1 "invoice" .subject false true ∈ c5Patterns ∧
      findById c5Db.filters (mkFilter 1 "invoice" .subject false true).id =
        some (mkFilter 1 "xxx" .subject false true) ∧
      changedB (mkFilter 1 "xxx" .subject false true)
        (mkFilter 1 "invoice" .subject false true) = true) ∧
    (((1 : Nat), (1 : Int)) ∈ (saveFilters noRegex c5Db c5Patterns).2.filtered ↔
      ∃ r ∈ c5Db.emails, ((1 : Nat), (1 : Int)).1 = r.id ∧
        ((1 : Nat), (1 : Int)).2 ∈ matchFilters r.subject r.sender
          (compileFilters noRegex [mkFilter 1 "invoice" .subject false true])) :=
  ⟨⟨by decide, by decide, by decide, by decide, by decide, by decide,
     by decide, by decide⟩,
   by decide,
   ⟨by decide, by decide, by decide⟩,
   (c5_save_filters_reconciles noRegex c5Db c5Patterns
     ⟨by decide, by decide, by decide, by decide, by decide, by decide,
      by decide, by decide⟩ (by decide)).2.1
     (mkFilter 1 "invoice" .subject false true) (by decide)
     (mkFilter 1 "xxx" .subject false true) (by decide) (by decide)
     ((1 : Nat), (1 : Int)) rfl⟩

end TheInbox


















